import Mathlib

/-!
# Shuffled — finds-engine verification

A shallow embedding of the deck-pattern detection engine (`finds-engine.js`)
and the small parts of the two server files that share its `FACTORY_ORDER`
constant, together with theorems checking the natural-language specification
against this code.

Conventions of the embedding:
* JS card tokens are `String`s (e.g. `"A♠"`, `"10♥"`); a parsed card is the
  structure `PCard` mirroring the object built by `parseCard`.
* JS numbers holding card values are modelled as `Int`.  An unrecognised rank
  gives `NaN` in JS (`parseInt`); `NaN` is modelled by the sentinel `-1`,
  which like `NaN` is never equal to `v + 1`, `v - 1`, `1` or `13` for any
  card value `v` and is never `≥ 10`.  All claims below only concern decks of
  well-formed tokens, where no sentinel ever arises.
* `for` loops that jump their index (`i = end`) are modelled by fuel-indexed
  structural recursion; the fuel is always at least the number of remaining
  loop steps, so the `0`-fuel branch is unreachable.
* Out-of-range JS indexing (`undefined`) is modelled by `List.getD` with a
  default that behaves like `undefined` in every comparison the engine makes.
-/

set_option maxRecDepth 100000

/-! ## Card helpers (finds-engine.js) -/

/-- The object built by `parseCard` in `finds-engine.js`. -/
structure PCard where
  rank : String
  suit : Char
  color : String
  value : Int
  original : String
deriving DecidableEq, Repr

/-- The `SUIT_NAMES` lookup (JS object access, `undefined` modelled as `""`). -/
def SUIT_NAMES (s : Char) : String :=
  if s = '♠' then "Spades"
  else if s = '♥' then "Hearts"
  else if s = '♦' then "Diamonds"
  else if s = '♣' then "Clubs"
  else ""

/-- JS `valueMap[rank] || parseInt(rank)`: A=1, J=11, Q=12, K=13, numerals
literal.  `parseInt` of any other rank is `NaN`, modelled as `-1`. -/
def rankValue (rank : String) : Int :=
  if rank = "A" then 1
  else if rank = "J" then 11
  else if rank = "Q" then 12
  else if rank = "K" then 13
  else if rank = "2" then 2
  else if rank = "3" then 3
  else if rank = "4" then 4
  else if rank = "5" then 5
  else if rank = "6" then 6
  else if rank = "7" then 7
  else if rank = "8" then 8
  else if rank = "9" then 9
  else if rank = "10" then 10
  else -1

/-- JS `parseCard(card)`: the suit is the last character (`card.slice(-1)`), the
rank everything before it (`card.slice(0, -1)`). -/
def parseCard (card : String) : PCard :=
  let suit := card.data.getLast?.getD ' '
  let rank := String.mk card.data.dropLast
  let color := if suit = '♥' ∨ suit = '♦' then "red" else "black"
  { rank := rank, suit := suit, color := color, value := rankValue rank,
    original := card }

/-- JS `rankPlural`: "K" → "Kings", "7" → "7s", "A" → "Aces". -/
def rankPlural (rank : String) : String :=
  if rank = "A" then "Aces"
  else if rank = "2" then "2s"
  else if rank = "3" then "3s"
  else if rank = "4" then "4s"
  else if rank = "5" then "5s"
  else if rank = "6" then "6s"
  else if rank = "7" then "7s"
  else if rank = "8" then "8s"
  else if rank = "9" then "9s"
  else if rank = "10" then "10s"
  else if rank = "J" then "Jacks"
  else if rank = "Q" then "Queens"
  else if rank = "K" then "Kings"
  else rank

/-- Does this card count as a 10-value for Blackjack? (10, J, Q, K) -/
def isTenValue (parsedCard : PCard) : Prop :=
  parsedCard.value ≥ 10

instance (c : PCard) : Decidable (isTenValue c) := by
  unfold isTenValue; infer_instance

/-- The `RARITY_COLORS` lookup (JS object access, `undefined` modelled as `""`). -/
def RARITY_COLORS (r : String) : String :=
  if r = "Common" then "#6b7280"
  else if r = "Uncommon" then "#34d399"
  else if r = "Rare" then "#60a5fa"
  else if r = "Very Rare" then "#a78bfa"
  else if r = "Extraordinary" then "#fb7185"
  else if r = "Legendary" then "#fbbf24"
  else ""

/-- The `FACTORY_ORDER` constant of `finds-engine.js`: the order of a brand-new deck. -/
def FACTORY_ORDER : List String :=
  ["A♠","2♠","3♠","4♠","5♠","6♠","7♠","8♠","9♠","10♠","J♠","Q♠","K♠",
   "A♦","2♦","3♦","4♦","5♦","6♦","7♦","8♦","9♦","10♦","J♦","Q♦","K♦",
   "K♣","Q♣","J♣","10♣","9♣","8♣","7♣","6♣","5♣","4♣","3♣","2♣","A♣",
   "K♥","Q♥","J♥","10♥","9♥","8♥","7♥","6♥","5♥","4♥","3♥","2♥","A♥"]

/-- A find record `{ id, name, icon, color, rarity, positions }`.  The JS
objects gain the `isNew` field only at the very end of `detectFinds`; before
that the field defaults to `false`. -/
structure Find where
  id : String
  name : String
  icon : String
  color : String
  rarity : String
  positions : List Nat
  isNew : Bool := false
deriving DecidableEq, Repr

/-- JS `parsed[i]` access.  Out-of-range access yields `undefined` in JS; the default
`parseCard ""` (blank rank/suit, sentinel value) behaves like `undefined` in
every comparison the detectors perform on well-formed decks. -/
def cardAt (parsed : List PCard) (i : Nat) : PCard :=
  parsed.getD i (parseCard "")

/-- Generic scan: starting at `j`, advance while `j < n` and the continuation
predicate `p j` holds; return the first index where the scan breaks.  This is
the `while`/`continues` skeleton shared by the streak detectors. -/
def scanEnd (n : Nat) (p : Nat → Prop) [DecidablePred p] : Nat → Nat → Nat
  | 0, j => j
  | fuel + 1, j => if j < n ∧ p j then scanEnd n p fuel (j + 1) else j

/-! ## Detector: Same-Rank Groups (`detectSameRankGroups`) -/

/-- One step of `detectSameRankGroups`: the group of adjacent equal-rank cards
starting at `i` ends at `groupEnd`, the first `j > i` whose rank differs. -/
def sameRankGroupEnd (parsed : List PCard) (i : Nat) : Nat :=
  scanEnd parsed.length (fun j => (cardAt parsed j).rank = (cardAt parsed i).rank)
    (parsed.length - (i + 1)) (i + 1)

/-- Loop body of `detectSameRankGroups`; `i` jumps to the end of each group. -/
def sameRankFrom (parsed : List PCard) : Nat → Nat → List Find
  | 0, _ => []
  | fuel + 1, i =>
    if i < parsed.length then
      let j := sameRankGroupEnd parsed i
      let groupSize := j - i
      let positions := List.range' i groupSize
      let rank := (cardAt parsed i).rank
      let group : List Find :=
        if groupSize ≥ 4 then
          [{ id := "quad", name := "Quad " ++ rankPlural rank, icon := "🃏",
             color := RARITY_COLORS "Very Rare", rarity := "Very Rare",
             positions := positions }]
        else if groupSize ≥ 3 then
          [{ id := "triple", name := "Triple " ++ rankPlural rank, icon := "🃏",
             color := RARITY_COLORS "Uncommon", rarity := "Uncommon",
             positions := positions }]
        else if groupSize ≥ 2 then
          [{ id := "pair", name := "Pair of " ++ rankPlural rank, icon := "🃏",
             color := RARITY_COLORS "Common", rarity := "Common",
             positions := positions }]
        else []
      group ++ sameRankFrom parsed fuel j
    else []

/-- JS `detectSameRankGroups(parsed)`. -/
def detectSameRankGroups (parsed : List PCard) : List Find :=
  sameRankFrom parsed parsed.length 0

/-! ## Detector: Suited Streaks (`detectSuitedStreaks`) -/

/-- The suited streak starting at `start` breaks at the first `i > start`
with `¬(i < n ∧ parsed[i].suit = parsed[start].suit)`. -/
def suitedStreakEnd (parsed : List PCard) (start : Nat) : Nat :=
  scanEnd parsed.length (fun j => (cardAt parsed j).suit = (cardAt parsed start).suit)
    (parsed.length - (start + 1)) (start + 1)

/-- Loop of `detectSuitedStreaks`: one segment per iteration. -/
def suitedFrom (parsed : List PCard) : Nat → Nat → List Find
  | 0, _ => []
  | fuel + 1, start =>
    if start < parsed.length then
      let i := suitedStreakEnd parsed start
      let len := i - start
      let suitName := SUIT_NAMES (cardAt parsed start).suit
      let suitIcon := String.mk [(cardAt parsed start).suit]
      let group : List Find :=
        if len ≥ 3 then
          if len ≥ 8 then
            [{ id := "suited-8", name := "8+ " ++ suitName, icon := suitIcon,
               color := RARITY_COLORS "Extraordinary", rarity := "Extraordinary",
               positions := List.range' start len }]
          else if len ≥ 7 then
            [{ id := "suited-7", name := "7 " ++ suitName, icon := suitIcon,
               color := RARITY_COLORS "Very Rare", rarity := "Very Rare",
               positions := List.range' start len }]
          else if len ≥ 6 then
            [{ id := "suited-6", name := "6 " ++ suitName, icon := suitIcon,
               color := RARITY_COLORS "Rare", rarity := "Rare",
               positions := List.range' start len }]
          else if len ≥ 5 then
            [{ id := "suited-5", name := "5 " ++ suitName, icon := suitIcon,
               color := RARITY_COLORS "Rare", rarity := "Rare",
               positions := List.range' start len }]
          else if len ≥ 4 then
            [{ id := "suited-4", name := "4 " ++ suitName, icon := suitIcon,
               color := RARITY_COLORS "Uncommon", rarity := "Uncommon",
               positions := List.range' start len }]
          else
            [{ id := "suited-3", name := "3 " ++ suitName, icon := suitIcon,
               color := RARITY_COLORS "Common", rarity := "Common",
               positions := List.range' start len }]
        else []
      group ++ suitedFrom parsed fuel i
    else []

/-- JS `detectSuitedStreaks(parsed)`. -/
def detectSuitedStreaks (parsed : List PCard) : List Find :=
  suitedFrom parsed parsed.length 0

/-! ## Detector: Rank Runs (`detectRuns`) -/

/-- The ascending-consecutive chain condition of `detectRuns`:
`parsed[j].value === parsed[j-1].value + 1`. -/
def runChain (parsed : List PCard) (j : Nat) : Prop :=
  (cardAt parsed j).value = (cardAt parsed (j - 1)).value + 1

instance (parsed : List PCard) (j : Nat) : Decidable (runChain parsed j) := by
  unfold runChain; infer_instance

/-- First index after `start` where the ascending run breaks. -/
def runEndAt (parsed : List PCard) (start : Nat) : Nat :=
  scanEnd parsed.length (runChain parsed) (parsed.length - (start + 1)) (start + 1)

/-- The Ace-high extension test of `detectRuns` at break index `i`: the run
ends on a King and the very next card is an Ace. -/
def aceExtension (parsed : List PCard) (i : Nat) : Prop :=
  i < parsed.length ∧ (cardAt parsed (i - 1)).value = 13 ∧
    (cardAt parsed i).rank = "A"

instance (parsed : List PCard) (i : Nat) : Decidable (aceExtension parsed i) := by
  unfold aceExtension; infer_instance

/-- End (exclusive) of the run segment starting at `start`, including the
once-per-run Ace-high extension. -/
def runSegEnd (parsed : List PCard) (start : Nat) : Nat :=
  let i := runEndAt parsed start
  if aceExtension parsed i then i + 1 else i

/-- The find pushed by `detectRuns` for a segment `[start, e)`, if long
enough.  `len = e - start` already counts the Ace extension. -/
def runFindsFor (start e : Nat) : List Find :=
  let len := e - start
  if len ≥ 3 then
    if len ≥ 7 then
      [{ id := "run-7", name := "Run of " ++ toString len, icon := "📈",
         color := RARITY_COLORS "Very Rare", rarity := "Very Rare",
         positions := List.range' start len }]
    else if len ≥ 6 then
      [{ id := "run-6", name := "Run of 6", icon := "📈",
         color := RARITY_COLORS "Very Rare", rarity := "Very Rare",
         positions := List.range' start len }]
    else if len ≥ 5 then
      [{ id := "straight", name := "Straight", icon := "📈",
         color := RARITY_COLORS "Rare", rarity := "Rare",
         positions := List.range' start len }]
    else if len ≥ 4 then
      [{ id := "run-4", name := "Run of 4", icon := "📈",
         color := RARITY_COLORS "Uncommon", rarity := "Uncommon",
         positions := List.range' start len }]
    else
      [{ id := "run-3", name := "Run of 3", icon := "📈",
         color := RARITY_COLORS "Common", rarity := "Common",
         positions := List.range' start len }]
  else []

/-- Loop of `detectRuns`: after each segment the scan resumes at the segment
end (`start = end; i = end` in the source), so an Ace consumed by the
extension is *not* reconsidered as the start of the next run. -/
def runsFrom (parsed : List PCard) : Nat → Nat → List Find
  | 0, _ => []
  | fuel + 1, start =>
    if start < parsed.length then
      let e := runSegEnd parsed start
      runFindsFor start e ++ runsFrom parsed fuel e
    else []

/-- JS `detectRuns(parsed)`. -/
def detectRuns (parsed : List PCard) : List Find :=
  runsFrom parsed parsed.length 0

/-! ## Detector: Colour Streaks (`detectColourStreaks`) -/

/-- Break index of the colour streak starting at `start`. -/
def colourStreakEnd (parsed : List PCard) (start : Nat) : Nat :=
  scanEnd parsed.length (fun j => (cardAt parsed j).color = (cardAt parsed start).color)
    (parsed.length - (start + 1)) (start + 1)

/-- Loop of `detectColourStreaks`. -/
def colourFrom (parsed : List PCard) : Nat → Nat → List Find
  | 0, _ => []
  | fuel + 1, start =>
    if start < parsed.length then
      let i := colourStreakEnd parsed start
      let len := i - start
      let colorName := if (cardAt parsed start).color = "red" then "Red" else "Black"
      let icon := if (cardAt parsed start).color = "red" then "🔴" else "⚫"
      let group : List Find :=
        if len ≥ 6 then
          if len ≥ 10 then
            [{ id := "colour-10", name := colorName ++ " Streak of " ++ toString len,
               icon := icon, color := RARITY_COLORS "Very Rare",
               rarity := "Very Rare", positions := List.range' start len }]
          else if len ≥ 8 then
            [{ id := "colour-8", name := colorName ++ " Streak of " ++ toString len,
               icon := icon, color := RARITY_COLORS "Rare",
               rarity := "Rare", positions := List.range' start len }]
          else
            [{ id := "colour-6", name := colorName ++ " Streak of " ++ toString len,
               icon := icon, color := RARITY_COLORS "Uncommon",
               rarity := "Uncommon", positions := List.range' start len }]
        else []
      group ++ colourFrom parsed fuel i
    else []

/-- JS `detectColourStreaks(parsed)`. -/
def detectColourStreaks (parsed : List PCard) : List Find :=
  colourFrom parsed parsed.length 0

/-! ## Detector: Alternating Colour (`detectAlternating`) -/

/-- Break index of the alternating-colour run starting at `start`: the chain
condition compares each card with its immediate predecessor. -/
def alternatingEnd (parsed : List PCard) (start : Nat) : Nat :=
  scanEnd parsed.length (fun j => (cardAt parsed j).color ≠ (cardAt parsed (j - 1)).color)
    (parsed.length - (start + 1)) (start + 1)

/-- Loop of `detectAlternating`. -/
def alternatingFrom (parsed : List PCard) : Nat → Nat → List Find
  | 0, _ => []
  | fuel + 1, start =>
    if start < parsed.length then
      let i := alternatingEnd parsed start
      let len := i - start
      let group : List Find :=
        if len ≥ 7 then
          if len ≥ 10 then
            [{ id := "alternating-10", name := "Alternating " ++ toString len,
               icon := "🎭", color := RARITY_COLORS "Very Rare",
               rarity := "Very Rare", positions := List.range' start len }]
          else
            [{ id := "alternating-7", name := "Alternating " ++ toString len,
               icon := "🎭", color := RARITY_COLORS "Rare",
               rarity := "Rare", positions := List.range' start len }]
        else []
      group ++ alternatingFrom parsed fuel i
    else []

/-- JS `detectAlternating(parsed)`. -/
def detectAlternating (parsed : List PCard) : List Find :=
  alternatingFrom parsed parsed.length 0

/-! ## Detector: Blackjack Family (`detectBlackjack`) -/

/-- Body of the `detectBlackjack` loop at window start `i`. -/
def blackjackAt (parsed : List PCard) (i : Nat) : List Find :=
  let a := cardAt parsed i
  let b := cardAt parsed (i + 1)
  let classify : PCard → PCard → List Find := fun ace ten =>
    if ace.original = "A♠" ∧ ten.original = "J♠" then
      [{ id := "perfect-blackjack", name := "Perfect Blackjack", icon := "🂡",
         color := RARITY_COLORS "Rare", rarity := "Rare", positions := [i, i + 1] }]
    else if ace.suit = ten.suit then
      [{ id := "suited-blackjack", name := "Suited Blackjack", icon := "🂡",
         color := RARITY_COLORS "Uncommon", rarity := "Uncommon",
         positions := [i, i + 1] }]
    else
      [{ id := "blackjack", name := "Blackjack", icon := "🂡",
         color := RARITY_COLORS "Common", rarity := "Common",
         positions := [i, i + 1] }]
  if a.rank = "A" ∧ isTenValue b then classify a b
  else if b.rank = "A" ∧ isTenValue a then classify b a
  else []

/-- JS `detectBlackjack(parsed)`: all adjacent windows `i < length - 1`. -/
def detectBlackjack (parsed : List PCard) : List Find :=
  (List.range (parsed.length - 1)).flatMap (blackjackAt parsed)

/-! ## Detector: Counting Finds (`detectCountingFinds`) -/

/-- JS `detectCountingFinds(sameRankResults)`: aggregates over the same-rank
detector's output; positions are the concatenation of the member groups. -/
def detectCountingFinds (sameRankResults : List Find) : List Find :=
  let pairs := sameRankResults.filter (fun f => f.id = "pair")
  let triples := sameRankResults.filter (fun f => f.id = "triple")
  let quads := sameRankResults.filter (fun f => f.id = "quad")
  (if pairs.length ≥ 3 then
    [{ id := "three-pairs", name := toString pairs.length ++ " Pairs",
       icon := "🃏", color := RARITY_COLORS "Uncommon", rarity := "Uncommon",
       positions := pairs.flatMap (fun f => f.positions) }]
   else []) ++
  (if triples.length ≥ 2 then
    [{ id := "two-triples", name := "Two Triples", icon := "🃏",
       color := RARITY_COLORS "Rare", rarity := "Rare",
       positions := triples.flatMap (fun f => f.positions) }]
   else []) ++
  (if quads.length ≥ 2 then
    [{ id := "two-quads", name := "Two Quads", icon := "🃏",
       color := RARITY_COLORS "Extraordinary", rarity := "Extraordinary",
       positions := quads.flatMap (fun f => f.positions) }]
   else [])

/-! ## Detector: Mirror (`detectMirror`) -/

/-- JS `detectMirror(parsed)`: rank-equal pairs at positions `i` and `51 - i`. -/
def detectMirror (parsed : List PCard) : List Find :=
  let mirrorPositions := (List.range 26).flatMap (fun i =>
    if (cardAt parsed i).rank = (cardAt parsed (51 - i)).rank then [i, 51 - i]
    else [])
  let mirrorCount := mirrorPositions.length / 2
  if mirrorCount ≥ 3 then
    [{ id := "mirror", name := toString mirrorCount ++ " Mirrors", icon := "🪞",
       color := RARITY_COLORS "Uncommon", rarity := "Uncommon",
       positions := mirrorPositions }]
  else []

/-! ## Detector: Two Pair Pattern (`detectTwoPairPattern`) -/

/-- JS `detectTwoPairPattern(parsed)`: AABB in 4 consecutive cards.  The JS loop
bound `i <= length - 4` is `i < length - 3` (empty when `length < 4`). -/
def detectTwoPairPattern (parsed : List PCard) : List Find :=
  (List.range (parsed.length - 3)).flatMap (fun i =>
    let r0 := (cardAt parsed i).rank
    let r1 := (cardAt parsed (i + 1)).rank
    let r2 := (cardAt parsed (i + 2)).rank
    let r3 := (cardAt parsed (i + 3)).rank
    if r0 = r1 ∧ r2 = r3 ∧ r0 ≠ r2 then
      [{ id := "two-pair", name := "Two Pair", icon := "🃏",
         color := RARITY_COLORS "Rare", rarity := "Rare",
         positions := [i, i + 1, i + 2, i + 3] }]
    else [])

/-! ## Detector: Full House (`detectFullHouse`) -/

/-- JS `detectFullHouse(parsed)`: AAABB or AABBB in 5 consecutive cards. -/
def detectFullHouse (parsed : List PCard) : List Find :=
  (List.range (parsed.length - 4)).flatMap (fun i =>
    let r0 := (cardAt parsed i).rank
    let r1 := (cardAt parsed (i + 1)).rank
    let r2 := (cardAt parsed (i + 2)).rank
    let r3 := (cardAt parsed (i + 3)).rank
    let r4 := (cardAt parsed (i + 4)).rank
    let isAAABB := r0 = r1 ∧ r1 = r2 ∧ r3 = r4 ∧ r0 ≠ r3
    let isAABBB := r0 = r1 ∧ r2 = r3 ∧ r3 = r4 ∧ r0 ≠ r2
    if isAAABB ∨ isAABBB then
      [{ id := "full-house", name := "Full House", icon := "🏠",
         color := RARITY_COLORS "Very Rare", rarity := "Very Rare",
         positions := [i, i + 1, i + 2, i + 3, i + 4] }]
    else [])

/-! ## Detector: Straight Flush and Royal Flush (`detectStraightFlush`) -/

/-- The in-loop continuation of `detectStraightFlush` relative to run start
`start`: same suit as the start card, and either ascending-consecutive or the
in-loop Ace-high case (previous value 13, this card an Ace of the run suit). -/
def sfChain (parsed : List PCard) (start j : Nat) : Prop :=
  (cardAt parsed j).suit = (cardAt parsed start).suit ∧
    ((cardAt parsed j).value = (cardAt parsed (j - 1)).value + 1 ∨
      ((cardAt parsed (j - 1)).value = 13 ∧ (cardAt parsed j).rank = "A" ∧
        (cardAt parsed j).suit = (cardAt parsed start).suit))

instance (parsed : List PCard) (start j : Nat) : Decidable (sfChain parsed start j) := by
  unfold sfChain; infer_instance

/-- Break index of the suited ascending run starting at `start`. -/
def sfEndAt (parsed : List PCard) (start : Nat) : Nat :=
  scanEnd parsed.length (sfChain parsed start) (parsed.length - (start + 1)) (start + 1)

/-- The post-loop Ace-high extension of `detectStraightFlush` at break index
`i` (additionally requires the Ace to share the run's suit). -/
def sfAceExtension (parsed : List PCard) (start i : Nat) : Prop :=
  i < parsed.length ∧ (cardAt parsed (i - 1)).value = 13 ∧
    (cardAt parsed i).rank = "A" ∧ (cardAt parsed i).suit = (cardAt parsed start).suit

instance (parsed : List PCard) (start i : Nat) : Decidable (sfAceExtension parsed start i) := by
  unfold sfAceExtension; infer_instance

/-- End (exclusive) of the straight-flush segment starting at `start`. -/
def sfSegEnd (parsed : List PCard) (start : Nat) : Nat :=
  let i := sfEndAt parsed start
  if sfAceExtension parsed start i then i + 1 else i

/-- The Royal-Flush test of `detectStraightFlush` on a segment `[start, e)`:
`values.includes(1) && values.includes(13) && values.includes(10) &&
values.includes(11) && values.includes(12)` — membership, not set equality. -/
def sfIsRoyal (parsed : List PCard) (start e : Nat) : Prop :=
  let values := (List.range' start (e - start)).map (fun p => (cardAt parsed p).value)
  1 ∈ values ∧ 13 ∈ values ∧ 10 ∈ values ∧ 11 ∈ values ∧ 12 ∈ values

instance (parsed : List PCard) (start e : Nat) : Decidable (sfIsRoyal parsed start e) := by
  unfold sfIsRoyal; infer_instance

/-- The find pushed by `detectStraightFlush` for a segment `[start, e)`. -/
def sfFindsFor (parsed : List PCard) (start e : Nat) : List Find :=
  let len := e - start
  if len ≥ 5 then
    if sfIsRoyal parsed start e then
      [{ id := "royal-flush",
         name := "Royal Flush (" ++ SUIT_NAMES (cardAt parsed start).suit ++ ")",
         icon := "👑", color := RARITY_COLORS "Legendary", rarity := "Legendary",
         positions := List.range' start len }]
    else
      [{ id := "straight-flush", name := "Straight Flush", icon := "⚡",
         color := RARITY_COLORS "Extraordinary", rarity := "Extraordinary",
         positions := List.range' start len }]
  else []

/-- Loop of `detectStraightFlush`. -/
def sfFrom (parsed : List PCard) : Nat → Nat → List Find
  | 0, _ => []
  | fuel + 1, start =>
    if start < parsed.length then
      let e := sfSegEnd parsed start
      sfFindsFor parsed start e ++ sfFrom parsed fuel e
    else []

/-- JS `detectStraightFlush(parsed)`. -/
def detectStraightFlush (parsed : List PCard) : List Find :=
  sfFrom parsed parsed.length 0

/-! ## Detector: Dead Man's Hand (`detectDeadMansHand`) -/

/-- JS `detectDeadMansHand(parsed)`: exactly two Aces and two 8s in a window of
four adjacent cards. -/
def detectDeadMansHand (parsed : List PCard) : List Find :=
  (List.range (parsed.length - 3)).flatMap (fun i =>
    let window := [cardAt parsed i, cardAt parsed (i + 1), cardAt parsed (i + 2),
      cardAt parsed (i + 3)]
    let aces := (window.filter (fun c => c.rank = "A")).length
    let eights := (window.filter (fun c => c.rank = "8")).length
    if aces = 2 ∧ eights = 2 then
      [{ id := "dead-mans-hand", name := "Dead Man's Hand", icon := "💀",
         color := RARITY_COLORS "Extraordinary", rarity := "Extraordinary",
         positions := [i, i + 1, i + 2, i + 3] }]
    else [])

/-! ## Detector: Solitaire Run (`detectSolitaire`) -/

/-- Break index of the descending alternating-colour run starting at
`start`: `parsed[j].value === parsed[j-1].value - 1` and colours alternate. -/
def solitaireEnd (parsed : List PCard) (start : Nat) : Nat :=
  scanEnd parsed.length
    (fun j => (cardAt parsed j).value = (cardAt parsed (j - 1)).value - 1 ∧
      (cardAt parsed j).color ≠ (cardAt parsed (j - 1)).color)
    (parsed.length - (start + 1)) (start + 1)

/-- Loop of `detectSolitaire`. -/
def solitaireFrom (parsed : List PCard) : Nat → Nat → List Find
  | 0, _ => []
  | fuel + 1, start =>
    if start < parsed.length then
      let i := solitaireEnd parsed start
      let len := i - start
      let group : List Find :=
        if len ≥ 5 then
          [{ id := "solitaire-5", name := "Solitaire " ++ toString len,
             icon := "🂠", color := RARITY_COLORS "Extraordinary",
             rarity := "Extraordinary", positions := List.range' start len }]
        else []
      group ++ solitaireFrom parsed fuel i
    else []

/-- JS `detectSolitaire(parsed)`. -/
def detectSolitaire (parsed : List PCard) : List Find :=
  solitaireFrom parsed parsed.length 0

/-! ## Detector: Ace High (`detectAceHigh`) -/

/-- JS `detectAceHigh(parsed)`: the Ace of Spades at position 0. -/
def detectAceHigh (parsed : List PCard) : List Find :=
  if (cardAt parsed 0).original = "A♠" then
    [{ id := "ace-high", name := "Ace High", icon := "🂡",
       color := RARITY_COLORS "Rare", rarity := "Rare", positions := [0] }]
  else []

/-! ## Detector: Ascending Top Five (`detectAscendingTopFive`) -/

/-- JS `detectAscendingTopFive(parsed)`: the first five cards strictly ascend in
value (`parsed[i].value <= parsed[i-1].value` clears the flag). -/
def detectAscendingTopFive (parsed : List PCard) : List Find :=
  if parsed.length < 5 then []
  else
    let ascending := ([1, 2, 3, 4] : List Nat).all
      (fun i => decide ((cardAt parsed (i - 1)).value < (cardAt parsed i).value))
    if ascending then
      [{ id := "ascending-top-5", name := "Ascending Top Five", icon := "⬆️",
         color := RARITY_COLORS "Extraordinary", rarity := "Extraordinary",
         positions := [0, 1, 2, 3, 4] }]
    else []

/-! ## Detector: Factory Run (`detectFactoryRun`) -/

/-- The find pushed by `detectFactoryRun` for a preserved block. -/
def factoryFind (runStart runLen : Nat) : Find :=
  { id := "factory-run", name := "Factory Run of " ++ toString runLen,
    icon := "🏭", color := RARITY_COLORS "Extraordinary",
    rarity := "Extraordinary", positions := List.range' runStart runLen }

/-- Loop of `detectFactoryRun` over the raw token deck, carrying `runStart`
and `runLen`; after the loop the final run is flushed. -/
def factoryFrom (deck : List String) : Nat → Nat → Nat → Nat → List Find
  | 0, _, _, _ => []
  | fuel + 1, i, runStart, runLen =>
    if i < deck.length then
      if deck.getD i "" = FACTORY_ORDER.getD i "" then
        factoryFrom deck fuel (i + 1) (if runLen = 0 then i else runStart) (runLen + 1)
      else
        (if runLen ≥ 4 then [factoryFind runStart runLen] else []) ++
          factoryFrom deck fuel (i + 1) runStart 0
    else if runLen ≥ 4 then [factoryFind runStart runLen] else []

/-- JS `detectFactoryRun(deck)` — uses the raw deck, not the parsed cards. -/
def detectFactoryRun (deck : List String) : List Find :=
  factoryFrom deck (deck.length + 1) 0 0 0

/-! ## Best version only — the Reconciler (`applyBestVersionOnly`) -/

/-- One entry of `SUPPRESSION_RULES`. -/
structure Rule where
  winner : String
  losers : List String
deriving DecidableEq, Repr

/-- JS `SUPPRESSION_RULES` of `finds-engine.js`. -/
def SUPPRESSION_RULES : List Rule :=
  [{ winner := "royal-flush",
     losers := ["straight-flush", "straight", "run-6", "run-7",
       "suited-3", "suited-4", "suited-5", "suited-6", "suited-7", "suited-8"] },
   { winner := "straight-flush",
     losers := ["straight", "run-6", "run-7",
       "suited-3", "suited-4", "suited-5", "suited-6", "suited-7", "suited-8"] },
   { winner := "perfect-blackjack", losers := ["suited-blackjack", "blackjack"] },
   { winner := "suited-blackjack", losers := ["blackjack"] },
   { winner := "two-quads", losers := ["two-triples"] }]

/-- JS `positionsOverlap(posA, posB)`: does `posB` contain an element of
`posA`?  (The JS `Set` only performs membership tests.) -/
def positionsOverlap (posA posB : List Nat) : Bool :=
  posB.any (fun p => posA.contains p)

/-- Step 1 of `applyBestVersionOnly`: counting finds suppress their members.
All three presence flags are read from the incoming list before filtering. -/
def countingSuppress (finds : List Find) : List Find :=
  let hasThreePairs := finds.any (fun f => f.id = "three-pairs")
  let hasTwoTriples := finds.any (fun f => f.id = "two-triples")
  let hasTwoQuads := finds.any (fun f => f.id = "two-quads")
  let f1 := if hasThreePairs then finds.filter (fun f => f.id ≠ "pair") else finds
  let f2 := if hasTwoTriples then f1.filter (fun f => f.id ≠ "triple") else f1
  if hasTwoQuads then f2.filter (fun f => f.id ≠ "quad") else f2

/-- Step 2 body: apply one suppression rule (skipped when no winner is
present; the skip is observationally the same as filtering). -/
def applyRule (filtered : List Find) (rule : Rule) : List Find :=
  let winners := filtered.filter (fun f => f.id = rule.winner)
  if winners.length = 0 then filtered
  else
    filtered.filter (fun f =>
      !(rule.losers.contains f.id) ||
        !(winners.any (fun w => positionsOverlap w.positions f.positions)))

/-- Step 3 state update: JS `Map.set` keeps the key's original insertion
position, storing the later find only if it has strictly more positions. -/
def upsertBest (m : List Find) (f : Find) : List Find :=
  match m with
  | [] => [f]
  | g :: rest =>
    if g.id = f.id then
      (if f.positions.length > g.positions.length then f else g) :: rest
    else g :: upsertBest rest f

/-- Step 3 of `applyBestVersionOnly`: deduplicate by id, keeping the instance
with the most positions; `Map.values()` iterates in key-insertion order. -/
def bestById (finds : List Find) : List Find :=
  finds.foldl upsertBest []

/-- JS `applyBestVersionOnly(finds)`: the three reconciliation passes. -/
def applyBestVersionOnly (finds : List Find) : List Find :=
  bestById (SUPPRESSION_RULES.foldl applyRule (countingSuppress finds))

/-! ## Main function (`detectFinds`) -/

/-- The `rarityOrder` table used for the final sort (rarest first). -/
def rarityOrder (r : String) : Nat :=
  if r = "Legendary" then 0
  else if r = "Extraordinary" then 1
  else if r = "Very Rare" then 2
  else if r = "Rare" then 3
  else if r = "Uncommon" then 4
  else if r = "Common" then 5
  else 6

/-- Stable insertion of a find into a rarity-sorted list: it goes in front of
the first element whose rarity rank is not smaller. -/
def insertByRarity (f : Find) : List Find → List Find
  | [] => [f]
  | g :: rest =>
    if rarityOrder f.rarity ≤ rarityOrder g.rarity then f :: g :: rest
    else g :: insertByRarity f rest

/-- The final `allFinds.sort((a, b) => rarityOrder[a.rarity] -
rarityOrder[b.rarity])`.  `Array.prototype.sort` is a stable sort (ES2019);
every stable sort by the same key computes the same list, modelled here as
stable insertion sort. -/
def sortByRarity : List Find → List Find
  | [] => []
  | f :: rest => insertByRarity f (sortByRarity rest)

/-- The concatenation of all detector outputs in the fixed order of
`detectFinds` (the raw candidate list handed to the reconciler). -/
def allCandidates (deck : List String) : List Find :=
  let parsed := deck.map parseCard
  let sameRankResults := detectSameRankGroups parsed
  sameRankResults ++
    detectSuitedStreaks parsed ++
    detectRuns parsed ++
    detectColourStreaks parsed ++
    detectAlternating parsed ++
    detectBlackjack parsed ++
    detectCountingFinds sameRankResults ++
    detectMirror parsed ++
    detectTwoPairPattern parsed ++
    detectFullHouse parsed ++
    detectStraightFlush parsed ++
    detectDeadMansHand parsed ++
    detectSolitaire parsed ++
    detectAceHigh parsed ++
    detectAscendingTopFive parsed ++
    detectFactoryRun deck

/-- The reconciled candidate list, before the final sort. -/
def reconciledFinds (deck : List String) : List Find :=
  applyBestVersionOnly (allCandidates deck)

/-- JS `detectFinds(deck)`: run all detectors, reconcile, sort rarest-first,
set `isNew = true` on every survivor. -/
def detectFinds (deck : List String) : List Find :=
  (sortByRarity (reconciledFinds deck)).map (fun f => { f with isNew := true })

/-! ## The server files

`server.js` builds the reference deck and counts cards sitting in their
factory position; its `FACTORY_ORDER` is imported from `finds-engine.js`, so
`countFactoryPositions` below references the engine constant directly.  The
older, unnamed server file carries its own copy of the constant
(`LegacyServer.FACTORY_ORDER`). -/

def SUITS : List String := ["♠", "♥", "♦", "♣"]

def RANKS : List String :=
  ["A", "2", "3", "4", "5", "6", "7", "8", "9", "10", "J", "Q", "K"]

/-- JS `createDeck()` of `server.js`: all 52 rank-suit tokens. -/
def createDeck : List String :=
  SUITS.flatMap (fun suit => RANKS.map (fun rank => rank ++ suit))

/-- JS `countFactoryPositions(deck)` of `server.js`, written against the
imported engine constant `FACTORY_ORDER`. -/
def countFactoryPositions (deck : List String) : Nat :=
  ((List.range deck.length).filter
    (fun i => deck.getD i "" = FACTORY_ORDER.getD i "")).length

namespace LegacyServer

/-- The `FACTORY_ORDER` constant of the unnamed legacy server file, declared
there verbatim rather than imported. -/
def FACTORY_ORDER : List String :=
  ["A♠","2♠","3♠","4♠","5♠","6♠","7♠","8♠","9♠","10♠","J♠","Q♠","K♠",
   "A♦","2♦","3♦","4♦","5♦","6♦","7♦","8♦","9♦","10♦","J♦","Q♦","K♦",
   "K♣","Q♣","J♣","10♣","9♣","8♣","7♣","6♣","5♣","4♣","3♣","2♣","A♣",
   "K♥","Q♥","J♥","10♥","9♥","8♥","7♥","6♥","5♥","4♥","3♥","2♥","A♥"]

/-- JS `countFactoryPositions(deck)` of the legacy server file, written against
its own local constant. -/
def countFactoryPositions (deck : List String) : Nat :=
  ((List.range deck.length).filter
    (fun i => deck.getD i "" = FACTORY_ORDER.getD i "")).length

end LegacyServer

/-- A valid input deck: a permutation of the standard 52 tokens (spec §6: "an
ordered sequence of exactly 52 distinct tokens … denoting a permutation of
the standard French deck"). -/
def ValidDeck (deck : List String) : Prop :=
  deck.Perm createDeck

instance (deck : List String) : Decidable (ValidDeck deck) := by
  unfold ValidDeck; infer_instance

/-! ## Basic properties of the scan skeleton -/

theorem scanEnd_ge (n : Nat) (p : Nat → Prop) [DecidablePred p] :
    ∀ fuel j, j ≤ scanEnd n p fuel j := by
  intro fuel
  induction fuel with
  | zero => intro j; exact Nat.le_refl j
  | succ fuel ih =>
    intro j
    unfold scanEnd
    split
    · exact Nat.le_trans (Nat.le_succ j) (ih (j + 1))
    · exact Nat.le_refl j

theorem scanEnd_le (n : Nat) (p : Nat → Prop) [DecidablePred p] :
    ∀ fuel j, j ≤ n → scanEnd n p fuel j ≤ n := by
  intro fuel
  induction fuel with
  | zero => intro j hj; exact hj
  | succ fuel ih =>
    intro j hj
    unfold scanEnd
    split
    · next h => exact ih (j + 1) h.1
    · exact hj

/-- Every index passed over by the scan satisfies the predicate (and is in
range). -/
theorem scanEnd_holds (n : Nat) (p : Nat → Prop) [DecidablePred p] :
    ∀ fuel j k, j ≤ k → k < scanEnd n p fuel j → k < n ∧ p k := by
  intro fuel
  induction fuel with
  | zero =>
    intro j k hjk hk
    exact absurd (Nat.lt_of_le_of_lt hjk hk) (Nat.lt_irrefl j)
  | succ fuel ih =>
    intro j k hjk hk
    unfold scanEnd at hk
    split at hk
    · next h =>
      rcases Nat.eq_or_lt_of_le hjk with rfl | hlt
      · exact h
      · exact ih (j + 1) k hlt hk
    · exact absurd (Nat.lt_of_le_of_lt hjk hk) (Nat.lt_irrefl j)

/-- With enough fuel, the scan stops only at a genuine break. -/
theorem scanEnd_break (n : Nat) (p : Nat → Prop) [DecidablePred p] :
    ∀ fuel j, n ≤ j + fuel →
      ¬ (scanEnd n p fuel j < n ∧ p (scanEnd n p fuel j)) := by
  intro fuel
  induction fuel with
  | zero =>
    intro j hj h
    unfold scanEnd at h
    exact absurd h.1 (Nat.not_lt.mpr (by omega))
  | succ fuel ih =>
    intro j hj
    unfold scanEnd
    split
    · exact ih (j + 1) (by omega)
    · next h => exact h

/-- The scan result is the unique "first break" index: anything that breaks
and is preceded only by continuations is the scan result. -/
theorem scanEnd_eq (n : Nat) (p : Nat → Prop) [DecidablePred p] :
    ∀ fuel j e, j ≤ e → e ≤ j + fuel →
      (∀ k, j ≤ k → k < e → k < n ∧ p k) → ¬ (e < n ∧ p e) →
      scanEnd n p fuel j = e := by
  intro fuel
  induction fuel with
  | zero =>
    intro j e hje hej _ _
    unfold scanEnd
    omega
  | succ fuel ih =>
    intro j e hje hej hall hbreak
    unfold scanEnd
    rcases Nat.eq_or_lt_of_le hje with rfl | hlt
    · split
      · next h => exact absurd h hbreak
      · rfl
    · split
      · exact ih (j + 1) e hlt (by omega) (fun k hk1 hk2 => hall k (by omega) hk2) hbreak
      · next h => exact absurd (hall j (Nat.le_refl j) hlt) h

/-! ## C7 — the factory deck yields a whole-deck Factory Run -/

/-- Claim C7: Running `detectFinds` on the Factory Order deck itself returns a
find with id `"factory-run"` covering all 52 positions `0,…,51`. -/
theorem factory_deck_full_factory_run :
    ∃ f ∈ detectFinds FACTORY_ORDER,
      f.id = "factory-run" ∧ f.positions = List.range' 0 52 := by
  decide

/-! ## C9 — the two `FACTORY_ORDER` constants agree -/

/-- Claim C9: The engine's `FACTORY_ORDER` and the legacy server file's
`FACTORY_ORDER` are element-wise equal 52-token sequences, and the
factory-position statistic of `server.js` (defined against the engine's
imported constant) computes the same count as the legacy statistic on every
deck. -/
theorem factory_order_constants_agree :
    FACTORY_ORDER = LegacyServer.FACTORY_ORDER ∧
      ∀ deck : List String,
        countFactoryPositions deck = LegacyServer.countFactoryPositions deck := by
  refine ⟨rfl, fun deck => rfl⟩

/-! ## C1 — Royal Flush vs Straight Flush classification -/

/-- The numeric values the parsed deck holds at a find's positions. -/
def posValues (parsed : List PCard) (f : Find) : List Int :=
  f.positions.map (fun p => (cardAt parsed p).value)

/-- The spec's Royal-Flush condition: the value set at the run's positions is
*exactly* `{1, 10, 11, 12, 13}`. -/
def royalValueSetExact (parsed : List PCard) (f : Find) : Prop :=
  (∀ v ∈ posValues parsed f, v ∈ ([1, 10, 11, 12, 13] : List Int)) ∧
    (∀ v ∈ ([1, 10, 11, 12, 13] : List Int), v ∈ posValues parsed f)

instance (parsed : List PCard) (f : Find) : Decidable (royalValueSetExact parsed f) := by
  unfold royalValueSetExact; infer_instance

/-- The weaker condition the code actually tests (`values.includes(…)` five
times): the five Royal values are all *present* among the run's values. -/
def royalValuesPresent (parsed : List PCard) (f : Find) : Prop :=
  ∀ v ∈ ([1, 10, 11, 12, 13] : List Int), v ∈ posValues parsed f

instance (parsed : List PCard) (f : Find) : Decidable (royalValuesPresent parsed f) := by
  unfold royalValuesPresent; infer_instance

/-- Claim C1, counterexample: On the Factory Order deck (a valid 52-card
permutation) the Straight-Flush detector terminates the maximal suited
ascending run A♠…K♠ (length 13) and emits a Royal Flush for it, although its
value set is {1,…,13}, not exactly {1,10,11,12,13}; the claim would require a
Straight Flush find here. -/
theorem royal_flush_exact_set_refuted :
    ValidDeck FACTORY_ORDER ∧
      ¬ ∀ f ∈ detectStraightFlush (FACTORY_ORDER.map parseCard),
          (f.id = "royal-flush" ↔ royalValueSetExact (FACTORY_ORDER.map parseCard) f) := by
  decide

theorem sfFindsFor_classify (parsed : List PCard) (start e : Nat) :
    ∀ f ∈ sfFindsFor parsed start e,
      (f.id = "royal-flush" ∧ f.rarity = "Legendary" ∧ royalValuesPresent parsed f) ∨
        (f.id = "straight-flush" ∧ f.rarity = "Extraordinary" ∧
          ¬ royalValuesPresent parsed f) := by
  intro f hf
  unfold sfFindsFor at hf
  by_cases h5 : e - start ≥ 5
  · rw [if_pos h5] at hf
    by_cases hroyal : sfIsRoyal parsed start e
    · rw [if_pos hroyal] at hf
      simp only [List.mem_singleton] at hf
      subst hf
      left
      refine ⟨rfl, rfl, ?_⟩
      intro v hv
      unfold sfIsRoyal at hroyal
      unfold posValues
      simp only [List.mem_cons, List.not_mem_nil, or_false] at hv
      rcases hv with rfl | rfl | rfl | rfl | rfl
      · exact hroyal.1
      · exact hroyal.2.2.1
      · exact hroyal.2.2.2.1
      · exact hroyal.2.2.2.2
      · exact hroyal.2.1
    · rw [if_neg hroyal] at hf
      simp only [List.mem_singleton] at hf
      subst hf
      right
      refine ⟨rfl, rfl, ?_⟩
      intro hpres
      apply hroyal
      unfold sfIsRoyal
      unfold royalValuesPresent posValues at hpres
      simp only [List.mem_cons, List.not_mem_nil, or_false] at hpres
      exact ⟨hpres 1 (by tauto), hpres 13 (by tauto), hpres 10 (by tauto),
        hpres 11 (by tauto), hpres 12 (by tauto)⟩
  · rw [if_neg h5] at hf
    simp at hf

theorem sfFrom_classify (parsed : List PCard) :
    ∀ fuel start, ∀ f ∈ sfFrom parsed fuel start,
      (f.id = "royal-flush" ∧ f.rarity = "Legendary" ∧ royalValuesPresent parsed f) ∨
        (f.id = "straight-flush" ∧ f.rarity = "Extraordinary" ∧
          ¬ royalValuesPresent parsed f) := by
  intro fuel
  induction fuel with
  | zero => intro start f hf; simp [sfFrom] at hf
  | succ fuel ih =>
    intro start f hf
    unfold sfFrom at hf
    split at hf
    · rcases List.mem_append.mp hf with h | h
      · exact sfFindsFor_classify parsed start _ f h
      · exact ih _ f h
    · simp at hf

/-- Claim C1, amended: For every valid 52-card deck, each find emitted by the
Straight-Flush detector is a Royal Flush (rarity Legendary) exactly when the
values 1, 10, 11, 12, 13 are all *present* among the values at the run's
positions (the value set need not be exactly {1,10,11,12,13}: any longer
suited run containing Ace, 10, J, Q, K also qualifies), and otherwise is a
Straight Flush (rarity Extraordinary). -/
theorem royal_vs_straight_flush_classification :
    ∀ deck : List String, ValidDeck deck →
      ∀ f ∈ detectStraightFlush (deck.map parseCard),
        (f.id = "royal-flush" ∧ f.rarity = "Legendary" ∧
            royalValuesPresent (deck.map parseCard) f) ∨
          (f.id = "straight-flush" ∧ f.rarity = "Extraordinary" ∧
            ¬ royalValuesPresent (deck.map parseCard) f) := by
  intro deck _ f hf
  exact sfFrom_classify (deck.map parseCard) _ _ f hf

/-- The Royal-Flush find the engine emits for the spade block of the factory
deck; concrete input for the C1 witness. -/
def royalFlushSpades : Find :=
  { id := "royal-flush", name := "Royal Flush (Spades)", icon := "👑",
    color := "#fbbf24", rarity := "Legendary", positions := List.range' 0 13 }

/-- Witness for the amended C1 at a concrete input: the factory deck is valid,
the spade Royal-Flush find is emitted, and the theorem classifies it. -/
theorem royal_vs_straight_flush_classification_witness :
    ValidDeck FACTORY_ORDER ∧
      royalFlushSpades ∈ detectStraightFlush (FACTORY_ORDER.map parseCard) ∧
      ((royalFlushSpades.id = "royal-flush" ∧ royalFlushSpades.rarity = "Legendary" ∧
          royalValuesPresent (FACTORY_ORDER.map parseCard) royalFlushSpades) ∨
        (royalFlushSpades.id = "straight-flush" ∧
          royalFlushSpades.rarity = "Extraordinary" ∧
          ¬ royalValuesPresent (FACTORY_ORDER.map parseCard) royalFlushSpades)) :=
  ⟨by decide, by decide,
    royal_vs_straight_flush_classification FACTORY_ORDER (by decide)
      royalFlushSpades (by decide)⟩

/-! ## Reconciler toolkit: the dedup map (`bestById`) -/

/-- Elements produced by an upsert come from the map or are the new find. -/
theorem mem_upsertBest {m : List Find} {f g : Find} :
    g ∈ upsertBest m f → g ∈ m ∨ g = f := by
  induction m with
  | nil => intro h; simp [upsertBest] at h; exact Or.inr h
  | cons a rest ih =>
    intro h
    unfold upsertBest at h
    split at h
    · rcases List.mem_cons.mp h with h1 | h1
      · split at h1
        · exact Or.inr h1
        · exact Or.inl (List.mem_cons.mpr (Or.inl h1))
      · exact Or.inl (List.mem_cons.mpr (Or.inr h1))
    · rcases List.mem_cons.mp h with h1 | h1
      · exact Or.inl (List.mem_cons.mpr (Or.inl h1))
      · rcases ih h1 with h2 | h2
        · exact Or.inl (List.mem_cons.mpr (Or.inr h2))
        · exact Or.inr h2

/-- Ids present after an upsert. -/
theorem ids_upsertBest {m : List Find} {f : Find} {y : String} :
    y ∈ (upsertBest m f).map (fun g => g.id) ↔
      y ∈ m.map (fun g => g.id) ∨ y = f.id := by
  induction m with
  | nil => simp [upsertBest]
  | cons a rest ih =>
    unfold upsertBest
    split
    · next heq =>
      constructor
      · intro h
        rcases List.mem_map.mp h with ⟨g, hg, rfl⟩
        rcases List.mem_cons.mp hg with h1 | h1
        · split at h1
          · subst h1; exact Or.inr rfl
          · subst h1; exact Or.inl (by simp)
        · exact Or.inl (by simp; right; exact ⟨g, h1, rfl⟩)
      · intro h
        rcases h with h | rfl
        · rcases List.mem_map.mp h with ⟨g, hg, rfl⟩
          rcases List.mem_cons.mp hg with h1 | h1
          · subst h1
            split
            · next => exact List.mem_map.mpr ⟨f, by simp, heq.symm ▸ rfl⟩
            · exact List.mem_map.mpr ⟨g, by simp, rfl⟩
          · exact List.mem_map.mpr ⟨g, by simp [h1], rfl⟩
        · split
          · exact List.mem_map.mpr ⟨f, by simp, rfl⟩
          · exact List.mem_map.mpr ⟨a, by simp, heq⟩
    · next hne =>
      simp only [List.map_cons, List.mem_cons, ih]
      tauto

/-- Upserting preserves distinctness of the stored ids. -/
theorem nodup_ids_upsertBest {m : List Find} {f : Find}
    (h : (m.map (fun g => g.id)).Nodup) :
    ((upsertBest m f).map (fun g => g.id)).Nodup := by
  induction m with
  | nil => simp [upsertBest]
  | cons a rest ih =>
    simp only [List.map_cons, List.nodup_cons] at h
    unfold upsertBest
    split
    · next heq =>
      simp only [List.map_cons, List.nodup_cons]
      refine ⟨?_, h.2⟩
      split
      · next => rw [← heq]; exact h.1
      · exact h.1
    · next hne =>
      simp only [List.map_cons, List.nodup_cons]
      refine ⟨?_, ih h.2⟩
      intro hc
      rcases ids_upsertBest.mp hc with h1 | h1
      · exact h.1 h1
      · exact hne h1

/-- An upsert of a fresh id appends. -/
theorem upsertBest_append {m : List Find} {f : Find}
    (h : f.id ∉ m.map (fun g => g.id)) : upsertBest m f = m ++ [f] := by
  induction m with
  | nil => simp [upsertBest]
  | cons a rest ih =>
    simp only [List.map_cons, List.mem_cons] at h
    push_neg at h
    unfold upsertBest
    rw [if_neg (fun hc => h.1 hc.symm), ih h.2]
    simp

theorem bestById_go_mem {l : List Find} :
    ∀ {m f}, f ∈ List.foldl upsertBest m l → f ∈ m ∨ f ∈ l := by
  induction l with
  | nil => intro m f h; exact Or.inl h
  | cons a rest ih =>
    intro m f h
    rw [List.foldl_cons] at h
    rcases ih h with h1 | h1
    · rcases mem_upsertBest h1 with h2 | h2
      · exact Or.inl h2
      · exact Or.inr (by simp [h2])
    · exact Or.inr (by simp [h1])

/-- Every find kept by the dedup pass is one of the candidates. -/
theorem mem_bestById {l : List Find} {f : Find} (h : f ∈ bestById l) : f ∈ l := by
  rcases bestById_go_mem h with h1 | h1
  · simp at h1
  · exact h1

theorem bestById_go_nodup {l : List Find} :
    ∀ {m}, (m.map (fun g => g.id)).Nodup →
      ((List.foldl upsertBest m l).map (fun g => g.id)).Nodup := by
  induction l with
  | nil => intro m h; exact h
  | cons a rest ih =>
    intro m h
    rw [List.foldl_cons]
    exact ih (nodup_ids_upsertBest h)

/-- The dedup pass returns pairwise-distinct ids. -/
theorem nodup_ids_bestById (l : List Find) :
    ((bestById l).map (fun g => g.id)).Nodup :=
  bestById_go_nodup (by simp)

theorem bestById_go_of_nodup {l : List Find} :
    ∀ {m}, ((m ++ l).map (fun g => g.id)).Nodup →
      List.foldl upsertBest m l = m ++ l := by
  induction l with
  | nil => intro m _; simp
  | cons a rest ih =>
    intro m h
    have h2 : (m.map (fun g => g.id) ++ a.id :: rest.map (fun g => g.id)).Nodup := by
      simpa using h
    rw [List.nodup_append] at h2
    have hfresh : a.id ∉ m.map (fun g => g.id) :=
      fun hc => h2.2.2 hc (List.mem_cons_self _ _)
    have h3 : ((m ++ [a] ++ rest).map (fun g => g.id)).Nodup := by
      simpa [List.append_assoc] using h
    rw [List.foldl_cons, upsertBest_append hfresh, ih h3]
    simp

/-- On a list whose ids are already pairwise distinct the dedup pass is the
identity. -/
theorem bestById_of_nodup {l : List Find}
    (h : (l.map (fun g => g.id)).Nodup) : bestById l = l := by
  unfold bestById
  have := bestById_go_of_nodup (m := []) (l := l) (by simpa using h)
  simpa using this

/-! ## Reconciler toolkit: what the dedup keeps per id -/

/-- One comparison step of the "keep the best instance" selection: the stored
find is replaced only when the newcomer has strictly more positions. -/
def stepBest (acc : Option Find) (g : Find) : Option Find :=
  match acc with
  | none => some g
  | some b => if g.positions.length > b.positions.length then some g else some b

/-- The find the dedup map keeps among same-id candidates: the first one
attaining the maximal number of positions. -/
def firstLongest (l : List Find) : Option Find :=
  l.foldl stepBest none

theorem filter_id_eq_nil {m : List Find} {x : String}
    (hx : x ∉ m.map (fun g => g.id)) :
    m.filter (fun g => g.id == x) = [] := by
  rw [List.filter_eq_nil_iff]
  intro g hg
  simp only [beq_iff_eq]
  intro hc
  exact hx (List.mem_map.mpr ⟨g, hg, hc⟩)

theorem upsertBest_filter_ne {m : List Find} {f : Find} {x : String}
    (hne : f.id ≠ x) :
    (upsertBest m f).filter (fun g => g.id == x) =
      m.filter (fun g => g.id == x) := by
  induction m with
  | nil => simp [upsertBest, hne]
  | cons a rest ih =>
    unfold upsertBest
    split
    · next heq =>
      have hbest : ¬ ((if f.positions.length > a.positions.length then f else a).id = x) := by
        split
        · exact hne
        · rw [heq]; exact hne
      rw [List.filter_cons, List.filter_cons,
        if_neg (by simpa using hbest), if_neg (by simp only [beq_iff_eq]; rw [heq]; exact hne)]
    · next hne2 =>
      by_cases hax : a.id = x
      · rw [List.filter_cons, List.filter_cons,
          if_pos (by simpa using hax), if_pos (by simpa using hax), ih]
      · rw [List.filter_cons, List.filter_cons,
          if_neg (by simpa using hax), if_neg (by simpa using hax), ih]

theorem upsertBest_filter_eq {m : List Find} {f : Find} {x : String}
    (hnd : (m.map (fun g => g.id)).Nodup) (hf : f.id = x) :
    (upsertBest m f).filter (fun g => g.id == x) =
      (stepBest ((m.filter (fun g => g.id == x)).head?) f).toList := by
  induction m with
  | nil => simp [upsertBest, stepBest, hf]
  | cons a rest ih =>
    simp only [List.map_cons, List.nodup_cons] at hnd
    by_cases heq : a.id = f.id
    · have hax : a.id = x := heq.trans hf
      have hrest : rest.filter (fun g => g.id == x) = [] :=
        filter_id_eq_nil (by rw [← hax]; exact hnd.1)
      have h1 : upsertBest (a :: rest) f =
          (if f.positions.length > a.positions.length then f else a) :: rest := by
        unfold upsertBest; rw [if_pos heq]
      have hbestid : (if f.positions.length > a.positions.length then f else a).id = x := by
        split
        · exact hf
        · exact hax
      have hLsimp : List.filter (fun g => g.id == x)
          ((if f.positions.length > a.positions.length then f else a) :: rest) =
          [if f.positions.length > a.positions.length then f else a] := by
        rw [List.filter_cons, if_pos (by simpa using hbestid), hrest]
      have hRsimp : List.filter (fun g => g.id == x) (a :: rest) = [a] := by
        rw [List.filter_cons, if_pos (by simpa using hax), hrest]
      rw [h1, hLsimp, hRsimp]
      show _ = (stepBest (some a) f).toList
      by_cases hlen : f.positions.length > a.positions.length
      · rw [if_pos hlen]; simp [stepBest, hlen]
      · rw [if_neg hlen]; simp [stepBest, hlen]
    · have h1 : upsertBest (a :: rest) f = a :: upsertBest rest f := by
        conv_lhs => rw [upsertBest]
        rw [if_neg heq]
      by_cases hax : a.id = x
      · exact absurd (hax.trans hf.symm) heq
      · rw [h1, List.filter_cons, if_neg (by simpa using hax),
          List.filter_cons, if_neg (by simpa using hax)]
        exact ih hnd.2

theorem stepBest_isSome (acc : Option Find) (g : Find) :
    (stepBest acc g).isSome := by
  cases acc <;> simp [stepBest]
  split <;> simp

theorem foldl_stepBest_isSome (l : List Find) :
    ∀ acc : Option Find, acc.isSome → (List.foldl stepBest acc l).isSome := by
  induction l with
  | nil => intro acc h; exact h
  | cons g rest ih =>
    intro acc _
    rw [List.foldl_cons]
    exact ih _ (stepBest_isSome acc g)

/-- A nodup-id list filtered to one id is its own optional head. -/
theorem filter_id_head {m : List Find} {x : String}
    (hnd : (m.map (fun g => g.id)).Nodup) :
    m.filter (fun g => g.id == x) =
      (m.filter (fun g => g.id == x)).head?.toList := by
  induction m with
  | nil => simp
  | cons a rest ih =>
    simp only [List.map_cons, List.nodup_cons] at hnd
    by_cases hax : a.id = x
    · have hrest : rest.filter (fun g => g.id == x) = [] :=
        filter_id_eq_nil (by rw [← hax]; exact hnd.1)
    
      rw [List.filter_cons, if_pos (by simpa using hax), hrest]
      simp
    · rw [List.filter_cons, if_neg (by simpa using hax)]
      exact ih hnd.2

theorem bestById_go_filter {x : String} {l : List Find} :
    ∀ {m}, (m.map (fun g => g.id)).Nodup →
      (List.foldl upsertBest m l).filter (fun g => g.id == x) =
        ((l.filter (fun g => g.id == x)).foldl stepBest
          ((m.filter (fun g => g.id == x)).head?)).toList := by
  induction l with
  | nil => intro m hnd; exact filter_id_head hnd
  | cons a rest ih =>
    intro m hnd
    rw [List.foldl_cons]
    by_cases hax : a.id = x
    · rw [ih (nodup_ids_upsertBest hnd), List.filter_cons, if_pos (by simpa using hax),
        List.foldl_cons]
      congr 2
      rw [upsertBest_filter_eq hnd hax]
      have hs := stepBest_isSome ((m.filter (fun g => g.id == x)).head?) a
      cases h0 : stepBest ((m.filter (fun g => g.id == x)).head?) a with
      | none => rw [h0] at hs; simp at hs
      | some b => simp
    · rw [ih (nodup_ids_upsertBest hnd), List.filter_cons, if_neg (by simpa using hax),
        upsertBest_filter_ne hax]

/-- What the dedup pass keeps for each id: exactly `firstLongest` of the
same-id candidates. -/
theorem bestById_filter (l : List Find) (x : String) :
    (bestById l).filter (fun g => g.id == x) =
      (firstLongest (l.filter (fun g => g.id == x))).toList := by
  unfold bestById firstLongest
  rw [bestById_go_filter (by simp)]
  simp

theorem foldl_stepBest_some_spec {l : List Find} :
    ∀ {a b : Find}, List.foldl stepBest (some a) l = some b →
      (b = a ∧ ∀ g ∈ l, g.positions.length ≤ a.positions.length) ∨
        (∃ l₁ l₂, l = l₁ ++ b :: l₂ ∧
          a.positions.length < b.positions.length ∧
          (∀ g ∈ l₁, g.positions.length < b.positions.length) ∧
          (∀ g ∈ l₂, g.positions.length ≤ b.positions.length)) := by
  induction l with
  | nil =>
    intro a b h
    simp only [List.foldl_nil, Option.some.injEq] at h
    exact Or.inl ⟨h.symm, by simp⟩
  | cons g rest ih =>
    intro a b h
    rw [List.foldl_cons] at h
    by_cases hg : g.positions.length > a.positions.length
    · rw [show stepBest (some a) g = some g by simp [stepBest, hg]] at h
      rcases ih h with ⟨rfl, hall⟩ | ⟨l₁, l₂, rfl, hab, h1, h2⟩
      · exact Or.inr ⟨[], rest, rfl, hg, by simp, hall⟩
      · exact Or.inr ⟨g :: l₁, l₂, rfl, Nat.lt_trans hg hab,
          by
            intro y hy
            rcases List.mem_cons.mp hy with rfl | hy't
            · exact hab
            · exact h1 y hy't,
          h2⟩
    · rw [show stepBest (some a) g = some a by simp [stepBest, hg]] at h
      rcases ih h with ⟨rfl, hall⟩ | ⟨l₁, l₂, rfl, hab, h1, h2⟩
      · refine Or.inl ⟨rfl, ?_⟩
        intro y hy
        rcases List.mem_cons.mp hy with rfl | hy't
        · exact Nat.not_lt.mp hg
        · exact hall y hy't
      · refine Or.inr ⟨g :: l₁, l₂, rfl, hab, ?_, h2⟩
        intro y hy
        rcases List.mem_cons.mp hy with rfl | hy't
        · exact Nat.lt_of_le_of_lt (Nat.not_lt.mp hg) hab
        · exact h1 y hy't

/-- JS `firstLongest` really is the first find of maximal positions-length. -/
theorem firstLongest_spec {l : List Find} {b : Find}
    (h : firstLongest l = some b) :
    (∀ g ∈ l, g.positions.length ≤ b.positions.length) ∧
      ∃ l₁ l₂, l = l₁ ++ b :: l₂ ∧
        ∀ g ∈ l₁, g.positions.length < b.positions.length := by
  cases l with
  | nil => simp [firstLongest] at h
  | cons a rest =>
    unfold firstLongest at h
    rw [List.foldl_cons, show stepBest none a = some a from rfl] at h
    rcases foldl_stepBest_some_spec h with ⟨rfl, hall⟩ | ⟨l₁, l₂, rfl, hab, h1, h2⟩
    · refine ⟨?_, [], rest, rfl, by simp⟩
      intro y hy
      rcases List.mem_cons.mp hy with rfl | hy't
      · exact Nat.le_refl _
      · exact hall y hy't
    · refine ⟨?_, a :: l₁, l₂, rfl, ?_⟩
      · intro y hy
        rcases List.mem_cons.mp hy with rfl | hy't
        · exact Nat.le_of_lt hab
        · rcases List.mem_append.mp hy't with hy1 | hy2
          · exact Nat.le_of_lt (h1 y hy1)
          · rcases List.mem_cons.mp hy2 with rfl | hy3
            · exact Nat.le_refl _
            · exact h2 y hy3
      · intro y hy
        rcases List.mem_cons.mp hy with rfl | hy't
        · exact hab
        · exact h1 y hy't

/-! ## C4 — the dedup pass keeps the first longest find per id -/

/-- Claim C4: For every candidate list, the Reconciler's final pass keeps per
id exactly `firstLongest` of the same-id candidates surviving the earlier
passes, and `firstLongest` is the first-encountered find of maximal
positions-length: every survivor of that id is no longer, and everything
before the kept find in list order is strictly shorter. -/
theorem reconciler_dedup_first_longest :
    ∀ (finds : List Find) (x : String),
      (applyBestVersionOnly finds).filter (fun f => f.id == x) =
        (firstLongest ((SUPPRESSION_RULES.foldl applyRule
          (countingSuppress finds)).filter (fun f => f.id == x))).toList ∧
      ∀ b, firstLongest ((SUPPRESSION_RULES.foldl applyRule
            (countingSuppress finds)).filter (fun f => f.id == x)) = some b →
        (∀ g ∈ (SUPPRESSION_RULES.foldl applyRule
            (countingSuppress finds)).filter (fun f => f.id == x),
          g.positions.length ≤ b.positions.length) ∧
        ∃ l₁ l₂, (SUPPRESSION_RULES.foldl applyRule
            (countingSuppress finds)).filter (fun f => f.id == x) = l₁ ++ b :: l₂ ∧
          ∀ g ∈ l₁, g.positions.length < b.positions.length := by
  intro finds x
  constructor
  · exact bestById_filter _ x
  · intro b hb
    exact firstLongest_spec hb

/-! ## Reconciler toolkit: suppression passes -/

theorem applyRule_subset {s : List Find} {r : Rule} {f : Find}
    (h : f ∈ applyRule s r) : f ∈ s := by
  unfold applyRule at h
  dsimp only [] at h
  split at h
  · exact h
  · exact List.mem_of_mem_filter h

theorem foldRules_subset {rules : List Rule} :
    ∀ {s f}, f ∈ List.foldl applyRule s rules → f ∈ s := by
  induction rules with
  | nil => intro s f h; exact h
  | cons r rest ih =>
    intro s f h
    rw [List.foldl_cons] at h
    exact applyRule_subset (ih h)

theorem countingSuppress_subset {finds : List Find} {f : Find}
    (h : f ∈ countingSuppress finds) : f ∈ finds := by
  unfold countingSuppress at h
  dsimp only [] at h
  split at h <;> split at h <;> split at h <;>
    first
      | exact h
      | exact List.mem_of_mem_filter h
      | exact List.mem_of_mem_filter (List.mem_of_mem_filter h)
      | exact List.mem_of_mem_filter (List.mem_of_mem_filter (List.mem_of_mem_filter h))

/-- After one rule fires, no surviving loser overlaps a surviving winner. -/
theorem applyRule_no_overlap {s : List Find} {r : Rule} {f w : Find}
    (hf : f ∈ applyRule s r) (hw : w ∈ applyRule s r)
    (hfl : f.id ∈ r.losers) (hww : w.id = r.winner) :
    positionsOverlap w.positions f.positions = false := by
  unfold applyRule at hf hw
  dsimp only [] at hf hw
  have hwin : w ∈ s.filter (fun g => decide (g.id = r.winner)) := by
    refine List.mem_filter.mpr ⟨?_, by simpa using hww⟩
    split at hw
    · exact hw
    · exact List.mem_of_mem_filter hw
  split at hf
  · next hempty =>
    rw [List.length_eq_zero] at hempty
    rw [hempty] at hwin
    simp at hwin
  · have hpass := (List.mem_filter.mp hf).2
    simp only [Bool.or_eq_true, Bool.not_eq_true'] at hpass
    rcases hpass with h1 | h1
    · exact absurd hfl (by simpa using h1)
    · rw [List.any_eq_false] at h1
      simpa using h1 w hwin

/-- Once a rule has been applied, all later passes keep its guarantee: among
the final survivors no loser of any applied rule overlaps a winner. -/
theorem foldRules_no_overlap {rules : List Rule} :
    ∀ {s r f w}, r ∈ rules →
      f ∈ List.foldl applyRule s rules → w ∈ List.foldl applyRule s rules →
      f.id ∈ r.losers → w.id = r.winner →
      positionsOverlap w.positions f.positions = false := by
  induction rules with
  | nil => intro s r f w hr; exact absurd hr (List.not_mem_nil r)
  | cons r0 rest ih =>
    intro s r f w hr hf hw hfl hww
    rw [List.foldl_cons] at hf hw
    rcases List.mem_cons.mp hr with rfl | hr'
    · exact applyRule_no_overlap (foldRules_subset hf) (foldRules_subset hw) hfl hww
    · exact ih hr' hf hw hfl hww

/-- A rule whose guarantee already holds leaves the list unchanged. -/
theorem applyRule_eq_self {s : List Find} {r : Rule}
    (h : ∀ f ∈ s, f.id ∈ r.losers → ∀ w ∈ s, w.id = r.winner →
      positionsOverlap w.positions f.positions = false) :
    applyRule s r = s := by
  unfold applyRule
  dsimp only []
  split
  · rfl
  · apply List.filter_eq_self.mpr
    intro f hf
    by_cases hfl : f.id ∈ r.losers
    · simp only [Bool.or_eq_true, Bool.not_eq_true']
      right
      rw [List.any_eq_false]
      intro w hw
      have hres := h f hf hfl w (List.mem_of_mem_filter hw)
        (by simpa using (List.mem_filter.mp hw).2)
      simp [hres]
    · simp only [Bool.or_eq_true, Bool.not_eq_true']
      left
      simpa using hfl

theorem foldRules_eq_self {rules : List Rule} {s : List Find}
    (h : ∀ r ∈ rules, applyRule s r = s) :
    List.foldl applyRule s rules = s := by
  induction rules with
  | nil => rfl
  | cons r0 rest ih =>
    rw [List.foldl_cons, h r0 (by simp)]
    exact ih (fun r hr => h r (by simp [hr]))

/-- Absence of the suppressed member ids makes step 1 the identity. -/
theorem countingSuppress_eq_self {finds : List Find}
    (hp : (finds.any (fun f => f.id = "three-pairs")) → ∀ f ∈ finds, f.id ≠ "pair")
    (ht : (finds.any (fun f => f.id = "two-triples")) → ∀ f ∈ finds, f.id ≠ "triple")
    (hq : (finds.any (fun f => f.id = "two-quads")) → ∀ f ∈ finds, f.id ≠ "quad") :
    countingSuppress finds = finds := by
  unfold countingSuppress
  dsimp only []
  have e1 : (if finds.any (fun f => decide (f.id = "three-pairs")) then
      finds.filter (fun f => f.id ≠ "pair") else finds) = finds := by
    split
    · next hh =>
      apply List.filter_eq_self.mpr
      intro f hf
      simpa using hp (by simpa using hh) f hf
    · rfl
  rw [e1]
  have e2 : (if finds.any (fun f => decide (f.id = "two-triples")) then
      finds.filter (fun f => f.id ≠ "triple") else finds) = finds := by
    split
    · next hh =>
      apply List.filter_eq_self.mpr
      intro f hf
      simpa using ht (by simpa using hh) f hf
    · rfl
  rw [e2]
  split
  · next hh =>
    apply List.filter_eq_self.mpr
    intro f hf
    simpa using hq (by simpa using hh) f hf
  · rfl

/-- Step 1 really removes every member id it fires on. -/
theorem countingSuppress_removes {finds : List Find} {f : Find}
    (hf : f ∈ countingSuppress finds) :
    (finds.any (fun g => g.id = "three-pairs") = true → f.id ≠ "pair") ∧
      (finds.any (fun g => g.id = "two-triples") = true → f.id ≠ "triple") ∧
      (finds.any (fun g => g.id = "two-quads") = true → f.id ≠ "quad") := by
  unfold countingSuppress at hf
  dsimp only [] at hf
  split at hf
  case isTrue h3 =>
    have hq : f.id ≠ "quad" := by simpa using (List.mem_filter.mp hf).2
    have hf2 := List.mem_of_mem_filter hf
    split at hf2
    case isTrue h2 =>
      have htr : f.id ≠ "triple" := by simpa using (List.mem_filter.mp hf2).2
      have hf1 := List.mem_of_mem_filter hf2
      split at hf1
      case isTrue h1 =>
        have hpr : f.id ≠ "pair" := by simpa using (List.mem_filter.mp hf1).2
        exact ⟨fun _ => hpr, fun _ => htr, fun _ => hq⟩
      case isFalse h1 =>
        exact ⟨fun hh => absurd hh h1, fun _ => htr, fun _ => hq⟩
    case isFalse h2 =>
      split at hf2
      case isTrue h1 =>
        have hpr : f.id ≠ "pair" := by simpa using (List.mem_filter.mp hf2).2
        exact ⟨fun _ => hpr, fun hh => absurd hh h2, fun _ => hq⟩
      case isFalse h1 =>
        exact ⟨fun hh => absurd hh h1, fun hh => absurd hh h2, fun _ => hq⟩
  case isFalse h3 =>
    split at hf
    case isTrue h2 =>
      have htr : f.id ≠ "triple" := by simpa using (List.mem_filter.mp hf).2
      have hf1 := List.mem_of_mem_filter hf
      split at hf1
      case isTrue h1 =>
        have hpr : f.id ≠ "pair" := by simpa using (List.mem_filter.mp hf1).2
        exact ⟨fun _ => hpr, fun _ => htr, fun hh => absurd hh h3⟩
      case isFalse h1 =>
        exact ⟨fun hh => absurd hh h1, fun _ => htr, fun hh => absurd hh h3⟩
    case isFalse h2 =>
      split at hf
      case isTrue h1 =>
        have hpr : f.id ≠ "pair" := by simpa using (List.mem_filter.mp hf).2
        exact ⟨fun _ => hpr, fun hh => absurd hh h2, fun hh => absurd hh h3⟩
      case isFalse h1 =>
        exact ⟨fun hh => absurd hh h1, fun hh => absurd hh h2, fun hh => absurd hh h3⟩

/-! ## C6 — the Reconciler is idempotent -/

/-- Claim C6: Re-running `applyBestVersionOnly` on its own output returns the
identical list (same finds, same order). -/
theorem reconciler_idempotent (finds : List Find) :
    applyBestVersionOnly (applyBestVersionOnly finds) = applyBestVersionOnly finds := by
  set out := applyBestVersionOnly finds with hout
  have hsub : ∀ f ∈ out, f ∈ countingSuppress finds := fun f hf =>
    foldRules_subset (mem_bestById hf)
  have hsubf : ∀ f ∈ out, f ∈ finds := fun f hf =>
    countingSuppress_subset (hsub f hf)
  have hs6 : ∀ f ∈ out,
      f ∈ List.foldl applyRule (countingSuppress finds) SUPPRESSION_RULES :=
    fun f hf => mem_bestById hf
  have h1 : countingSuppress out = out := by
    apply countingSuppress_eq_self
    · intro hh f hf
      rcases List.any_eq_true.mp hh with ⟨g, hg, hgid⟩
      have hfinds : finds.any (fun x => x.id = "three-pairs") = true :=
        List.any_eq_true.mpr ⟨g, hsubf g hg, hgid⟩
      exact (countingSuppress_removes (hsub f hf)).1 hfinds
    · intro hh f hf
      rcases List.any_eq_true.mp hh with ⟨g, hg, hgid⟩
      have hfinds : finds.any (fun x => x.id = "two-triples") = true :=
        List.any_eq_true.mpr ⟨g, hsubf g hg, hgid⟩
      exact (countingSuppress_removes (hsub f hf)).2.1 hfinds
    · intro hh f hf
      rcases List.any_eq_true.mp hh with ⟨g, hg, hgid⟩
      have hfinds : finds.any (fun x => x.id = "two-quads") = true :=
        List.any_eq_true.mpr ⟨g, hsubf g hg, hgid⟩
      exact (countingSuppress_removes (hsub f hf)).2.2 hfinds
  have h2 : List.foldl applyRule out SUPPRESSION_RULES = out := by
    apply foldRules_eq_self
    intro r hr
    apply applyRule_eq_self
    intro f hf hfl w hw hww
    exact foldRules_no_overlap hr (hs6 f hf) (hs6 w hw) hfl hww
  have h3 : bestById out = out := by
    apply bestById_of_nodup
    rw [hout]
    unfold applyBestVersionOnly
    exact nodup_ids_bestById _
  show applyBestVersionOnly out = out
  unfold applyBestVersionOnly
  rw [h1, h2, h3]

/-! ## Sort membership (needed to reason through the final sort) -/

theorem mem_insertByRarity {f g : Find} {l : List Find} :
    g ∈ insertByRarity f l ↔ g = f ∨ g ∈ l := by
  induction l with
  | nil => simp [insertByRarity]
  | cons a rest ih =>
    unfold insertByRarity
    split
    · simp [List.mem_cons]
    · rw [List.mem_cons, ih, List.mem_cons]
      tauto

theorem mem_sortByRarity {g : Find} {l : List Find} :
    g ∈ sortByRarity l ↔ g ∈ l := by
  induction l with
  | nil => simp [sortByRarity]
  | cons f rest ih =>
    unfold sortByRarity
    rw [mem_insertByRarity, ih, List.mem_cons]

theorem mem_detectFinds {deck : List String} {f : Find} :
    f ∈ detectFinds deck ↔
      ∃ g ∈ reconciledFinds deck, f = { g with isNew := true } := by
  unfold detectFinds
  simp only [List.mem_map]
  constructor
  · rintro ⟨g, hg, rfl⟩
    exact ⟨g, mem_sortByRarity.mp hg, rfl⟩
  · rintro ⟨g, hg, rfl⟩
    exact ⟨g, mem_sortByRarity.mpr hg, rfl⟩

/-! ## C5 — a Royal Flush admits no overlapping suppressed find -/

/-- Claim C5: For every valid 52-card permutation, a `royal-flush` find in the
result of `detectFinds` shares no position with any returned find whose id is
`straight-flush`, `straight`, `run-6`, `run-7`, or `suited-3` … `suited-8`. -/
theorem royal_flush_suppression :
    ∀ deck : List String, ValidDeck deck →
      ∀ f ∈ detectFinds deck, ∀ g ∈ detectFinds deck,
        f.id = "royal-flush" →
        g.id ∈ ["straight-flush", "straight", "run-6", "run-7", "suited-3",
          "suited-4", "suited-5", "suited-6", "suited-7", "suited-8"] →
        ∀ p ∈ f.positions, p ∉ g.positions := by
  intro deck _ f hf g hg hfid hgid p hp hpg
  rcases mem_detectFinds.mp hf with ⟨f0, hf0, rfl⟩
  rcases mem_detectFinds.mp hg with ⟨g0, hg0, rfl⟩
  have hf6 : f0 ∈ List.foldl applyRule (countingSuppress (allCandidates deck))
      SUPPRESSION_RULES := mem_bestById hf0
  have hg6 : g0 ∈ List.foldl applyRule (countingSuppress (allCandidates deck))
      SUPPRESSION_RULES := mem_bestById hg0
  have hrule : Rule.mk "royal-flush"
      ["straight-flush", "straight", "run-6", "run-7", "suited-3",
        "suited-4", "suited-5", "suited-6", "suited-7", "suited-8"] ∈
      SUPPRESSION_RULES := by
    simp [SUPPRESSION_RULES]
  have hno := foldRules_no_overlap hrule hg6 hf6 hgid hfid
  unfold positionsOverlap at hno
  rw [List.any_eq_false] at hno
  have := hno p hpg
  exact this (by simpa using hp)

/-- The suited-8 find for the club block of the factory deck, as returned by
`detectFinds` (concrete input for the C5 witness). -/
def suitedClubsFind : Find :=
  { id := "suited-8", name := "8+ Clubs", icon := "♣", color := "#fb7185",
    rarity := "Extraordinary", positions := List.range' 26 13, isNew := true }

/-- The spade Royal-Flush find as returned by `detectFinds` on the factory
deck. -/
def royalFlushSpadesOut : Find :=
  { royalFlushSpades with isNew := true }

/-- Witness for C5 at a concrete input: on the factory deck the result holds
a Royal Flush and a suited-8 find, and their positions are disjoint. -/
theorem royal_flush_suppression_witness :
    ValidDeck FACTORY_ORDER ∧
      royalFlushSpadesOut ∈ detectFinds FACTORY_ORDER ∧
      suitedClubsFind ∈ detectFinds FACTORY_ORDER ∧
      royalFlushSpadesOut.id = "royal-flush" ∧
      suitedClubsFind.id ∈ ["straight-flush", "straight", "run-6", "run-7",
        "suited-3", "suited-4", "suited-5", "suited-6", "suited-7", "suited-8"] ∧
      ∀ p ∈ royalFlushSpadesOut.positions, p ∉ suitedClubsFind.positions :=
  ⟨by decide, by decide, by decide, by decide, by decide,
    royal_flush_suppression FACTORY_ORDER (by decide)
      royalFlushSpadesOut (by decide) suitedClubsFind (by decide)
      (by decide) (by decide)⟩

/-! ## C8 — the final sort: sorted by rarity, stable within a tier -/

theorem pairwise_insertByRarity {f : Find} {l : List Find}
    (hl : l.Pairwise (fun a b => rarityOrder a.rarity ≤ rarityOrder b.rarity)) :
    (insertByRarity f l).Pairwise
      (fun a b => rarityOrder a.rarity ≤ rarityOrder b.rarity) := by
  induction l with
  | nil => simp [insertByRarity]
  | cons a rest ih =>
    rw [List.pairwise_cons] at hl
    unfold insertByRarity
    split
    · next hle =>
      rw [List.pairwise_cons]
      refine ⟨?_, List.pairwise_cons.mpr hl⟩
      intro b hb
      rcases List.mem_cons.mp hb with rfl | hb'
      · exact hle
      · exact Nat.le_trans hle (hl.1 b hb')
    · next hgt =>
      rw [List.pairwise_cons]
      refine ⟨?_, ih hl.2⟩
      intro b hb
      rcases mem_insertByRarity.mp hb with rfl | hb'
      · exact Nat.le_of_lt (Nat.lt_of_not_le hgt)
      · exact hl.1 b hb'

theorem pairwise_sortByRarity (l : List Find) :
    (sortByRarity l).Pairwise
      (fun a b => rarityOrder a.rarity ≤ rarityOrder b.rarity) := by
  induction l with
  | nil => simp [sortByRarity]
  | cons f rest ih =>
    unfold sortByRarity
    exact pairwise_insertByRarity ih

/-- Elements skipped while inserting have strictly smaller rarity rank, so
filtering a single tier commutes with insertion. -/
theorem filter_insertByRarity (f : Find) (l : List Find) (r : String) :
    (insertByRarity f l).filter (fun g => g.rarity == r) =
      if f.rarity == r then f :: l.filter (fun g => g.rarity == r)
      else l.filter (fun g => g.rarity == r) := by
  induction l with
  | nil =>
    unfold insertByRarity
    rw [List.filter_cons]
  | cons a rest ih =>
    unfold insertByRarity
    split
    · next hle =>
      rw [List.filter_cons]
    · next hgt =>
      by_cases hfr : f.rarity = r <;> by_cases har : a.rarity = r
      · exact absurd (le_of_eq (by rw [hfr, har])) hgt
      · simp [List.filter_cons, ih, hfr, har]
      · simp [List.filter_cons, ih, hfr, har]
      · simp [List.filter_cons, ih, hfr, har]

/-- Stability of the final sort: within one rarity tier the sorted list is
exactly the filtered input, in input order. -/
theorem filter_sortByRarity (l : List Find) (r : String) :
    (sortByRarity l).filter (fun g => g.rarity == r) =
      l.filter (fun g => g.rarity == r) := by
  induction l with
  | nil => rfl
  | cons f rest ih =>
    unfold sortByRarity
    rw [filter_insertByRarity, List.filter_cons]
    split <;> rw [ih]

/-- Claim C8: For every valid 52-card permutation, `detectFinds` returns a
list sorted ascending by `rarityOrder` (Legendary < Extraordinary <
Very Rare < Rare < Uncommon < Common, rarest first), and the sort is stable:
for each rarity tier, the returned finds of that tier are exactly the
reconciled candidates of that tier in their reconciled order (with the final
`isNew := true` flag applied). -/
theorem detectFinds_sorted_and_stable :
    ∀ deck : List String, ValidDeck deck →
      (detectFinds deck).Pairwise
        (fun a b => rarityOrder a.rarity ≤ rarityOrder b.rarity) ∧
      ∀ r : String,
        (detectFinds deck).filter (fun g => g.rarity == r) =
          ((reconciledFinds deck).filter (fun g => g.rarity == r)).map
            (fun f => { f with isNew := true }) := by
  intro deck _
  constructor
  · unfold detectFinds
    rw [List.pairwise_map]
    exact pairwise_sortByRarity _
  · intro r
    unfold detectFinds
    have hcomp : ((fun g : Find => g.rarity == r) ∘ (fun f : Find => { f with isNew := true })) =
        (fun g : Find => g.rarity == r) := rfl
    rw [List.filter_map, hcomp, filter_sortByRarity]

/-- Witness for C8 at a concrete input (the factory deck). -/
theorem detectFinds_sorted_and_stable_witness :
    ValidDeck FACTORY_ORDER ∧
      ((detectFinds FACTORY_ORDER).Pairwise
        (fun a b => rarityOrder a.rarity ≤ rarityOrder b.rarity) ∧
      ∀ r : String,
        (detectFinds FACTORY_ORDER).filter (fun g => g.rarity == r) =
          ((reconciledFinds FACTORY_ORDER).filter (fun g => g.rarity == r)).map
            (fun f => { f with isNew := true })) :=
  ⟨by decide, detectFinds_sorted_and_stable FACTORY_ORDER (by decide)⟩

/-! ## C3 — toolkit: well-formed finds -/

/-- Well-formedness of a find over a deck of `n` cards: its positions are
pairwise distinct indices in `[0, n)`. -/
def FindOK (n : Nat) (f : Find) : Prop :=
  f.positions.Nodup ∧ ∀ p ∈ f.positions, p < n

theorem findOK_range' {n s len : Nat} {f : Find}
    (hpos : f.positions = List.range' s len) (hle : s + len ≤ n) : FindOK n f := by
  constructor
  · rw [hpos]; exact List.nodup_range' s len
  · intro p hp
    rw [hpos] at hp
    have := List.mem_range'_1.mp hp
    omega

/-- Structure of the same-rank scanner's output: each find covers exactly one
group `[s, s+len)` with `s ≥ i` and `s+len ≤ n`. -/
theorem sameRankFrom_shape (parsed : List PCard) :
    ∀ fuel i, ∀ f ∈ sameRankFrom parsed fuel i,
      ∃ s len, f.positions = List.range' s len ∧ 1 ≤ len ∧ i ≤ s ∧
        s + len ≤ parsed.length := by
  intro fuel
  induction fuel with
  | zero => intro i f hf; simp [sameRankFrom] at hf
  | succ fuel ih =>
    intro i f hf
    unfold sameRankFrom at hf
    split at hf
    · next hlt =>
      dsimp only [] at hf
      rcases List.mem_append.mp hf with h | h
      · have hge : i + 1 ≤ sameRankGroupEnd parsed i := scanEnd_ge _ _ _ _
        have hend : sameRankGroupEnd parsed i ≤ parsed.length :=
          scanEnd_le _ _ _ _ (by omega)
        refine ⟨i, sameRankGroupEnd parsed i - i, ?_, by omega, Nat.le_refl _, by omega⟩
        repeat' split at h
        all_goals
          first
            | (simp only [List.mem_singleton] at h; subst h; rfl)
            | simp at h
      · rcases ih _ f h with ⟨s, len, h1, h2, h3, h4⟩
        have hge : i + 1 ≤ sameRankGroupEnd parsed i := scanEnd_ge _ _ _ _
        exact ⟨s, len, h1, h2, by omega, h4⟩
    · simp at hf

/-- Distinct groups of the same-rank scanner occupy strictly increasing
positions. -/
theorem sameRankFrom_ordered (parsed : List PCard) :
    ∀ fuel i, (sameRankFrom parsed fuel i).Pairwise
      (fun f g => ∀ p ∈ f.positions, ∀ q ∈ g.positions, p < q) := by
  intro fuel
  induction fuel with
  | zero => intro i; simp [sameRankFrom]
  | succ fuel ih =>
    intro i
    unfold sameRankFrom
    split
    · next hlt =>
      dsimp only []
      rw [List.pairwise_append]
      refine ⟨?_, ih _, ?_⟩
      · repeat' split
        all_goals simp
      · intro a ha b hb p hp q hq
        have hpa : a.positions = List.range' i (sameRankGroupEnd parsed i - i) := by
          repeat' split at ha
          all_goals
            first
              | (simp only [List.mem_singleton] at ha; subst ha; rfl)
              | simp at ha
        rcases sameRankFrom_shape parsed fuel _ b hb with ⟨s, len, h1, h2, h3, h4⟩
        rw [hpa] at hp
        rw [h1] at hq
        have hp' := List.mem_range'_1.mp hp
        have hq' := List.mem_range'_1.mp hq
        omega
    · simp

/-- All finds of the same-rank detector are well formed. -/
theorem detectSameRankGroups_ok (parsed : List PCard) :
    ∀ f ∈ detectSameRankGroups parsed, FindOK parsed.length f := by
  intro f hf
  rcases sameRankFrom_shape parsed _ _ f hf with ⟨s, len, h1, _, _, h4⟩
  exact findOK_range' h1 h4

/-- Output shape of the suited-streak scanner. -/
theorem suitedFrom_shape (parsed : List PCard) :
    ∀ fuel start, ∀ f ∈ suitedFrom parsed fuel start,
      ∃ s len, f.positions = List.range' s len ∧ s + len ≤ parsed.length := by
  intro fuel
  induction fuel with
  | zero => intro start f hf; simp [suitedFrom] at hf
  | succ fuel ih =>
    intro start f hf
    unfold suitedFrom at hf
    split at hf
    · next hlt =>
      dsimp only [] at hf
      rcases List.mem_append.mp hf with h | h
      · have hge : start + 1 ≤ suitedStreakEnd parsed start := scanEnd_ge _ _ _ _
        have hend : suitedStreakEnd parsed start ≤ parsed.length :=
          scanEnd_le _ _ _ _ (by omega)
        refine ⟨start, suitedStreakEnd parsed start - start, ?_, by omega⟩
        repeat' split at h
        all_goals
          first
            | (simp only [List.mem_singleton] at h; subst h; rfl)
            | simp at h
      · exact ih _ f h
    · simp at hf

/-- Output shape of the colour-streak scanner. -/
theorem colourFrom_shape (parsed : List PCard) :
    ∀ fuel start, ∀ f ∈ colourFrom parsed fuel start,
      ∃ s len, f.positions = List.range' s len ∧ s + len ≤ parsed.length := by
  intro fuel
  induction fuel with
  | zero => intro start f hf; simp [colourFrom] at hf
  | succ fuel ih =>
    intro start f hf
    unfold colourFrom at hf
    split at hf
    · next hlt =>
      dsimp only [] at hf
      rcases List.mem_append.mp hf with h | h
      · have hge : start + 1 ≤ colourStreakEnd parsed start := scanEnd_ge _ _ _ _
        have hend : colourStreakEnd parsed start ≤ parsed.length :=
          scanEnd_le _ _ _ _ (by omega)
        refine ⟨start, colourStreakEnd parsed start - start, ?_, by omega⟩
        repeat' split at h
        all_goals
          first
            | (simp only [List.mem_singleton] at h; subst h; rfl)
            | simp at h
      · exact ih _ f h
    · simp at hf

/-- Output shape of the alternating-colour scanner. -/
theorem alternatingFrom_shape (parsed : List PCard) :
    ∀ fuel start, ∀ f ∈ alternatingFrom parsed fuel start,
      ∃ s len, f.positions = List.range' s len ∧ s + len ≤ parsed.length := by
  intro fuel
  induction fuel with
  | zero => intro start f hf; simp [alternatingFrom] at hf
  | succ fuel ih =>
    intro start f hf
    unfold alternatingFrom at hf
    split at hf
    · next hlt =>
      dsimp only [] at hf
      rcases List.mem_append.mp hf with h | h
      · have hge : start + 1 ≤ alternatingEnd parsed start := scanEnd_ge _ _ _ _
        have hend : alternatingEnd parsed start ≤ parsed.length :=
          scanEnd_le _ _ _ _ (by omega)
        refine ⟨start, alternatingEnd parsed start - start, ?_, by omega⟩
        repeat' split at h
        all_goals
          first
            | (simp only [List.mem_singleton] at h; subst h; rfl)
            | simp at h
      · exact ih _ f h
    · simp at hf

/-- Output shape of the solitaire scanner. -/
theorem solitaireFrom_shape (parsed : List PCard) :
    ∀ fuel start, ∀ f ∈ solitaireFrom parsed fuel start,
      ∃ s len, f.positions = List.range' s len ∧ s + len ≤ parsed.length := by
  intro fuel
  induction fuel with
  | zero => intro start f hf; simp [solitaireFrom] at hf
  | succ fuel ih =>
    intro start f hf
    unfold solitaireFrom at hf
    split at hf
    · next hlt =>
      dsimp only [] at hf
      rcases List.mem_append.mp hf with h | h
      · have hge : start + 1 ≤ solitaireEnd parsed start := scanEnd_ge _ _ _ _
        have hend : solitaireEnd parsed start ≤ parsed.length :=
          scanEnd_le _ _ _ _ (by omega)
        refine ⟨start, solitaireEnd parsed start - start, ?_, by omega⟩
        repeat' split at h
        all_goals
          first
            | (simp only [List.mem_singleton] at h; subst h; rfl)
            | simp at h
      · exact ih _ f h
    · simp at hf

/-- The run segment end stays within the deck and after its start. -/
theorem runSegEnd_bounds (parsed : List PCard) (start : Nat)
    (h : start < parsed.length) :
    start + 1 ≤ runSegEnd parsed start ∧ runSegEnd parsed start ≤ parsed.length := by
  unfold runSegEnd
  dsimp only []
  have hge : start + 1 ≤ runEndAt parsed start := scanEnd_ge _ _ _ _
  have hle : runEndAt parsed start ≤ parsed.length := scanEnd_le _ _ _ _ (by omega)
  split
  · next hext => exact ⟨by omega, by rcases hext with ⟨h1, -⟩; omega⟩
  · exact ⟨hge, hle⟩

/-- The straight-flush segment end stays within the deck and after its
start. -/
theorem sfSegEnd_bounds (parsed : List PCard) (start : Nat)
    (h : start < parsed.length) :
    start + 1 ≤ sfSegEnd parsed start ∧ sfSegEnd parsed start ≤ parsed.length := by
  unfold sfSegEnd
  dsimp only []
  have hge : start + 1 ≤ sfEndAt parsed start := scanEnd_ge _ _ _ _
  have hle : sfEndAt parsed start ≤ parsed.length := scanEnd_le _ _ _ _ (by omega)
  split
  · next hext => exact ⟨by omega, by rcases hext with ⟨h1, -⟩; omega⟩
  · exact ⟨hge, hle⟩

/-- Finds pushed for a run segment cover exactly the segment. -/
theorem runFindsFor_shape {start e : Nat} {f : Find} (h : f ∈ runFindsFor start e) :
    f.positions = List.range' start (e - start) := by
  unfold runFindsFor at h
  dsimp only [] at h
  repeat' split at h
  all_goals
    first
      | (simp only [List.mem_singleton] at h; subst h; rfl)
      | simp at h

/-- Output shape of the rank-run scanner. -/
theorem runsFrom_shape (parsed : List PCard) :
    ∀ fuel start, ∀ f ∈ runsFrom parsed fuel start,
      ∃ s len, f.positions = List.range' s len ∧ start ≤ s ∧ s + len ≤ parsed.length := by
  intro fuel
  induction fuel with
  | zero => intro start f hf; simp [runsFrom] at hf
  | succ fuel ih =>
    intro start f hf
    unfold runsFrom at hf
    split at hf
    · next hlt =>
      dsimp only [] at hf
      rcases List.mem_append.mp hf with h | h
      · rcases runSegEnd_bounds parsed start hlt with ⟨h1, h2⟩
        exact ⟨start, runSegEnd parsed start - start, runFindsFor_shape h,
          Nat.le_refl _, by omega⟩
      · rcases ih _ f h with ⟨s, len, hh1, hh2, hh3⟩
        rcases runSegEnd_bounds parsed start hlt with ⟨h1, h2⟩
        exact ⟨s, len, hh1, by omega, hh3⟩
    · simp at hf

/-- Finds pushed for a straight-flush segment cover exactly the segment. -/
theorem sfFindsFor_shape {parsed : List PCard} {start e : Nat} {f : Find}
    (h : f ∈ sfFindsFor parsed start e) :
    f.positions = List.range' start (e - start) := by
  unfold sfFindsFor at h
  dsimp only [] at h
  repeat' split at h
  all_goals
    first
      | (simp only [List.mem_singleton] at h; subst h; rfl)
      | simp at h

/-- Output shape of the straight-flush scanner. -/
theorem sfFrom_shape (parsed : List PCard) :
    ∀ fuel start, ∀ f ∈ sfFrom parsed fuel start,
      ∃ s len, f.positions = List.range' s len ∧ start ≤ s ∧ s + len ≤ parsed.length := by
  intro fuel
  induction fuel with
  | zero => intro start f hf; simp [sfFrom] at hf
  | succ fuel ih =>
    intro start f hf
    unfold sfFrom at hf
    split at hf
    · next hlt =>
      dsimp only [] at hf
      rcases List.mem_append.mp hf with h | h
      · rcases sfSegEnd_bounds parsed start hlt with ⟨h1, h2⟩
        exact ⟨start, sfSegEnd parsed start - start, sfFindsFor_shape h,
          Nat.le_refl _, by omega⟩
      · rcases ih _ f h with ⟨s, len, hh1, hh2, hh3⟩
        rcases sfSegEnd_bounds parsed start hlt with ⟨h1, h2⟩
        exact ⟨s, len, hh1, by omega, hh3⟩
    · simp at hf

/-- Window detectors: blackjack windows are well formed. -/
theorem detectBlackjack_ok (parsed : List PCard) :
    ∀ f ∈ detectBlackjack parsed, FindOK parsed.length f := by
  intro f hf
  unfold detectBlackjack at hf
  rcases List.mem_flatMap.mp hf with ⟨i, hi, hf'⟩
  have hilt : i < parsed.length - 1 := List.mem_range.mp hi
  unfold blackjackAt at hf'
  dsimp only [] at hf'
  have hshape : f.positions = [i, i + 1] := by
    repeat' split at hf'
    all_goals
      first
        | (simp only [List.mem_singleton] at hf'; subst hf'; rfl)
        | simp at hf'
  constructor
  · rw [hshape]; simp
  · intro p hp
    rw [hshape] at hp
    rcases List.mem_cons.mp hp with rfl | hp'
    · omega
    · simp only [List.mem_singleton] at hp'
      omega

/-- Two-pair windows are well formed. -/
theorem detectTwoPairPattern_ok (parsed : List PCard) :
    ∀ f ∈ detectTwoPairPattern parsed, FindOK parsed.length f := by
  intro f hf
  unfold detectTwoPairPattern at hf
  rcases List.mem_flatMap.mp hf with ⟨i, hi, hf'⟩
  have hilt : i < parsed.length - 3 := List.mem_range.mp hi
  dsimp only [] at hf'
  have hshape : f.positions = [i, i + 1, i + 2, i + 3] := by
    repeat' split at hf'
    all_goals
      first
        | (simp only [List.mem_singleton] at hf'; subst hf'; rfl)
        | simp at hf'
  constructor
  · rw [hshape]; simp
  · intro p hp
    rw [hshape] at hp
    simp only [List.mem_cons, List.not_mem_nil, or_false] at hp
    rcases hp with rfl | rfl | rfl | rfl <;> omega

/-- Full-house windows are well formed. -/
theorem detectFullHouse_ok (parsed : List PCard) :
    ∀ f ∈ detectFullHouse parsed, FindOK parsed.length f := by
  intro f hf
  unfold detectFullHouse at hf
  rcases List.mem_flatMap.mp hf with ⟨i, hi, hf'⟩
  have hilt : i < parsed.length - 4 := List.mem_range.mp hi
  dsimp only [] at hf'
  have hshape : f.positions = [i, i + 1, i + 2, i + 3, i + 4] := by
    repeat' split at hf'
    all_goals
      first
        | (simp only [List.mem_singleton] at hf'; subst hf'; rfl)
        | simp at hf'
  constructor
  · rw [hshape]; simp
  · intro p hp
    rw [hshape] at hp
    simp only [List.mem_cons, List.not_mem_nil, or_false] at hp
    rcases hp with rfl | rfl | rfl | rfl | rfl <;> omega

/-- Dead Man's Hand windows are well formed. -/
theorem detectDeadMansHand_ok (parsed : List PCard) :
    ∀ f ∈ detectDeadMansHand parsed, FindOK parsed.length f := by
  intro f hf
  unfold detectDeadMansHand at hf
  rcases List.mem_flatMap.mp hf with ⟨i, hi, hf'⟩
  have hilt : i < parsed.length - 3 := List.mem_range.mp hi
  dsimp only [] at hf'
  have hshape : f.positions = [i, i + 1, i + 2, i + 3] := by
    repeat' split at hf'
    all_goals
      first
        | (simp only [List.mem_singleton] at hf'; subst hf'; rfl)
        | simp at hf'
  constructor
  · rw [hshape]; simp
  · intro p hp
    rw [hshape] at hp
    simp only [List.mem_cons, List.not_mem_nil, or_false] at hp
    rcases hp with rfl | rfl | rfl | rfl <;> omega

/-- The Ace-High find is well formed (the deck is nonempty whenever the
detector fires, since the out-of-range default card is not the A♠). -/
theorem detectAceHigh_ok (parsed : List PCard) :
    ∀ f ∈ detectAceHigh parsed, FindOK parsed.length f := by
  intro f hf
  unfold detectAceHigh at hf
  split at hf
  · next hcond =>
    simp only [List.mem_singleton] at hf
    subst hf
    refine ⟨by simp, ?_⟩
    intro p hp
    simp only [List.mem_singleton] at hp
    subst hp
    cases parsed with
    | nil => exact absurd hcond (by decide)
    | cons a rest => simp
  · simp at hf

/-- The Ascending-Top-Five find is well formed. -/
theorem detectAscendingTopFive_ok (parsed : List PCard) :
    ∀ f ∈ detectAscendingTopFive parsed, FindOK parsed.length f := by
  intro f hf
  unfold detectAscendingTopFive at hf
  split at hf
  · simp at hf
  · next hlen =>
    dsimp only [] at hf
    split at hf
    · simp only [List.mem_singleton] at hf
      subst hf
      refine ⟨by simp, ?_⟩
      intro p hp
      simp only [List.mem_cons, List.not_mem_nil, or_false] at hp
      rcases hp with rfl | rfl | rfl | rfl | rfl <;> omega
    · simp at hf

/-- The mirror detector's position list on a 52-card deck: distinct indices
below 52. -/
theorem mirror_flatMap_ok (parsed : List PCard) :
    ∀ l : List Nat, l.Pairwise (· < ·) → (∀ i ∈ l, i < 26) →
      (l.flatMap (fun i =>
        if (cardAt parsed i).rank = (cardAt parsed (51 - i)).rank then [i, 51 - i]
        else [])).Nodup ∧
      (∀ p ∈ l.flatMap (fun i =>
        if (cardAt parsed i).rank = (cardAt parsed (51 - i)).rank then [i, 51 - i]
        else []), p < 52) := by
  intro l
  induction l with
  | nil => simp
  | cons a rest ih =>
    intro hpw hlt
    rw [List.pairwise_cons] at hpw
    rcases ih hpw.2 (fun i hi => hlt i (by simp [hi])) with ⟨ihnd, ihbd⟩
    have ha26 : a < 26 := hlt a (by simp)
    rw [List.flatMap_cons]
    constructor
    · rw [List.nodup_append]
      refine ⟨?_, ihnd, ?_⟩
      · split
        · simp; omega
        · simp
      · intro p hp hq
        rcases List.mem_flatMap.mp hq with ⟨b, hb, hpb⟩
        have hab : a < b := hpw.1 b hb
        have hb26 : b < 26 := hlt b (by simp [hb])
        have hpa : p = a ∨ p = 51 - a := by
          split at hp
          · simp only [List.mem_cons, List.not_mem_nil, or_false] at hp
            tauto
          · simp at hp
        have hpb' : p = b ∨ p = 51 - b := by
          split at hpb
          · simp only [List.mem_cons, List.not_mem_nil, or_false] at hpb
            tauto
          · simp at hpb
        omega
    · intro p hp
      rcases List.mem_append.mp hp with h | h
      · split at h
        · simp only [List.mem_cons, List.not_mem_nil, or_false] at h
          rcases h with rfl | rfl <;> omega
        · simp at h
      · exact ihbd p h

/-- The mirror find is well formed on 52-card decks. -/
theorem detectMirror_ok (parsed : List PCard) (h52 : parsed.length = 52) :
    ∀ f ∈ detectMirror parsed, FindOK parsed.length f := by
  intro f hf
  unfold detectMirror at hf
  dsimp only [] at hf
  split at hf
  · simp only [List.mem_singleton] at hf
    subst hf
    rcases mirror_flatMap_ok parsed (List.range 26)
      (List.pairwise_lt_range 26) (fun i hi => List.mem_range.mp hi) with ⟨h1, h2⟩
    exact ⟨h1, by rw [h52]; exact h2⟩
  · simp at hf

/-- Joined position lists of strictly ordered well-formed finds stay
distinct. -/
theorem flatMap_positions_nodup {l : List Find}
    (hord : l.Pairwise (fun f g => ∀ p ∈ f.positions, ∀ q ∈ g.positions, p < q))
    (hnd : ∀ f ∈ l, f.positions.Nodup) :
    (l.flatMap (fun f => f.positions)).Nodup := by
  induction l with
  | nil => simp
  | cons a rest ih =>
    rw [List.pairwise_cons] at hord
    rw [List.flatMap_cons, List.nodup_append]
    refine ⟨hnd a (by simp), ih hord.2 (fun f hf => hnd f (by simp [hf])), ?_⟩
    intro p hp hq
    rcases List.mem_flatMap.mp hq with ⟨g, hg, hpg⟩
    exact Nat.lt_irrefl p (hord.1 g hg p hp p hpg)

/-- The counting finds are well formed. -/
theorem detectCountingFinds_ok (parsed : List PCard) :
    ∀ f ∈ detectCountingFinds (detectSameRankGroups parsed),
      FindOK parsed.length f := by
  intro f hf
  unfold detectCountingFinds at hf
  dsimp only [] at hf
  have hgen : ∀ x : String, f.positions =
      (((detectSameRankGroups parsed).filter (fun g => g.id == x)).flatMap
        (fun g => g.positions)) → FindOK parsed.length f := by
    intro x hpos
    constructor
    · rw [hpos]
      apply flatMap_positions_nodup
      · exact (sameRankFrom_ordered parsed _ _).sublist (List.filter_sublist _)
      · intro g hg
        exact (detectSameRankGroups_ok parsed g (List.mem_of_mem_filter hg)).1
    · intro p hp
      rw [hpos] at hp
      rcases List.mem_flatMap.mp hp with ⟨g, hg, hpg⟩
      exact (detectSameRankGroups_ok parsed g (List.mem_of_mem_filter hg)).2 p hpg
  rcases List.mem_append.mp hf with h | h
  · rcases List.mem_append.mp h with h' | h'
    · split at h'
      · simp only [List.mem_singleton] at h'
        subst h'
        exact hgen "pair" rfl
      · simp at h'
    · split at h'
      · simp only [List.mem_singleton] at h'
        subst h'
        exact hgen "triple" rfl
      · simp at h'
  · split at h
    · simp only [List.mem_singleton] at h
      subst h
      exact hgen "quad" rfl
    · simp at h

/-- Factory-run finds are well formed: the carried run always ends at the
current index. -/
theorem factoryFrom_ok (deck : List String) :
    ∀ fuel i rs rl, (0 < rl → rs + rl = i) → i ≤ deck.length →
      ∀ f ∈ factoryFrom deck fuel i rs rl, FindOK deck.length f := by
  intro fuel
  induction fuel with
  | zero => intro i rs rl _ _ f hf; simp [factoryFrom] at hf
  | succ fuel ih =>
    intro i rs rl hinv hile f hf
    unfold factoryFrom at hf
    split at hf
    · next hlt =>
      split at hf
      · refine ih (i + 1) _ _ ?_ (by omega) f hf
        intro _
        split
        · omega
        · next hrl =>
          have := hinv (by omega)
          omega
      · rcases List.mem_append.mp hf with h | h
        · split at h
          · next hrl =>
            simp only [List.mem_singleton] at h
            subst h
            have := hinv (by omega)
            exact findOK_range' rfl (by omega)
          · simp at h
        · exact ih (i + 1) rs 0 (by omega) (by omega) f h
    · split at hf
      · next hrl =>
        simp only [List.mem_singleton] at hf
        subst hf
        have := hinv (by omega)
        exact findOK_range' rfl (by omega)
      · simp at hf

theorem detectFactoryRun_ok (deck : List String) :
    ∀ f ∈ detectFactoryRun deck, FindOK deck.length f := by
  intro f hf
  exact factoryFrom_ok deck _ 0 0 0 (by omega) (by omega) f hf

/-- Every raw candidate of `detectFinds` on a 52-card deck is well formed. -/
theorem allCandidates_ok (deck : List String) (h52 : deck.length = 52) :
    ∀ f ∈ allCandidates deck, FindOK 52 f := by
  intro f hf
  have hplen : (deck.map parseCard).length = 52 := by simpa using h52
  have hconv : ∀ g, FindOK (deck.map parseCard).length g → FindOK 52 g := by
    rw [hplen]; exact fun g h => h
  unfold allCandidates at hf
  dsimp only [] at hf
  rcases List.mem_append.mp hf with hf | h
  swap
  · have hfr : FindOK deck.length f := detectFactoryRun_ok deck f h
    rw [h52] at hfr
    exact hfr
  rcases List.mem_append.mp hf with hf | h
  swap
  · exact hconv f (detectAscendingTopFive_ok _ f h)
  rcases List.mem_append.mp hf with hf | h
  swap
  · exact hconv f (detectAceHigh_ok _ f h)
  rcases List.mem_append.mp hf with hf | h
  swap
  · rcases solitaireFrom_shape _ _ _ f h with ⟨s, len, h1, h2⟩
    exact hconv f (findOK_range' h1 h2)
  rcases List.mem_append.mp hf with hf | h
  swap
  · exact hconv f (detectDeadMansHand_ok _ f h)
  rcases List.mem_append.mp hf with hf | h
  swap
  · rcases sfFrom_shape _ _ _ f h with ⟨s, len, h1, _, h3⟩
    exact hconv f (findOK_range' h1 h3)
  rcases List.mem_append.mp hf with hf | h
  swap
  · exact hconv f (detectFullHouse_ok _ f h)
  rcases List.mem_append.mp hf with hf | h
  swap
  · exact hconv f (detectTwoPairPattern_ok _ f h)
  rcases List.mem_append.mp hf with hf | h
  swap
  · exact hconv f (detectMirror_ok _ hplen f h)
  rcases List.mem_append.mp hf with hf | h
  swap
  · exact hconv f (detectCountingFinds_ok _ f h)
  rcases List.mem_append.mp hf with hf | h
  swap
  · exact hconv f (detectBlackjack_ok _ f h)
  rcases List.mem_append.mp hf with hf | h
  swap
  · rcases alternatingFrom_shape _ _ _ f h with ⟨s, len, h1, h2⟩
    exact hconv f (findOK_range' h1 h2)
  rcases List.mem_append.mp hf with hf | h
  swap
  · rcases colourFrom_shape _ _ _ f h with ⟨s, len, h1, h2⟩
    exact hconv f (findOK_range' h1 h2)
  rcases List.mem_append.mp hf with hf | h
  swap
  · rcases runsFrom_shape _ _ _ f h with ⟨s, len, h1, _, h3⟩
    exact hconv f (findOK_range' h1 h3)
  rcases List.mem_append.mp hf with hf | h
  swap
  · rcases suitedFrom_shape _ _ _ f h with ⟨s, len, h1, h2⟩
    exact hconv f (findOK_range' h1 h2)
  exact hconv f (detectSameRankGroups_ok _ f hf)

theorem insertByRarity_perm (f : Find) (l : List Find) :
    List.Perm (insertByRarity f l) (f :: l) := by
  induction l with
  | nil => simp [insertByRarity]
  | cons a rest ih =>
    unfold insertByRarity
    split
    · exact List.Perm.refl _
    · exact (List.Perm.cons a ih).trans (List.Perm.swap f a rest)

theorem sortByRarity_perm (l : List Find) : List.Perm (sortByRarity l) l := by
  induction l with
  | nil => exact List.Perm.refl _
  | cons f rest ih =>
    unfold sortByRarity
    exact (insertByRarity_perm f (sortByRarity rest)).trans (List.Perm.cons f ih)

/-- Claim C3: For every valid 52-card permutation, every find returned by
`detectFinds` has pairwise-distinct positions inside `[0, 52)`, and no two
returned finds share an id. -/
theorem detectFinds_positions_and_ids_ok :
    ∀ deck : List String, ValidDeck deck →
      (∀ f ∈ detectFinds deck, f.positions.Nodup ∧ ∀ p ∈ f.positions, p < 52) ∧
      ((detectFinds deck).map (fun f => f.id)).Nodup := by
  intro deck hvd
  have h52 : deck.length = 52 := by
    have hl := hvd.length_eq
    rw [hl]
    decide
  constructor
  · intro f hf
    rcases mem_detectFinds.mp hf with ⟨f0, hf0, rfl⟩
    have hcand : f0 ∈ allCandidates deck :=
      countingSuppress_subset (foldRules_subset (mem_bestById hf0))
    exact allCandidates_ok deck h52 f0 hcand
  · have hids : ((detectFinds deck).map (fun f => f.id)) =
        ((sortByRarity (reconciledFinds deck)).map (fun f => f.id)) := by
      unfold detectFinds
      rw [List.map_map]
      rfl
    rw [hids]
    have hperm : List.Perm ((sortByRarity (reconciledFinds deck)).map (fun f => f.id))
        ((reconciledFinds deck).map (fun f => f.id)) :=
      (sortByRarity_perm (reconciledFinds deck)).map _
    rw [hperm.nodup_iff]
    unfold reconciledFinds applyBestVersionOnly
    exact nodup_ids_bestById _

/-- Witness for C3 at a concrete input (the factory deck). -/
theorem detectFinds_positions_and_ids_ok_witness :
    ValidDeck FACTORY_ORDER ∧
      ((∀ f ∈ detectFinds FACTORY_ORDER,
        f.positions.Nodup ∧ ∀ p ∈ f.positions, p < 52) ∧
      ((detectFinds FACTORY_ORDER).map (fun f => f.id)).Nodup) :=
  ⟨by decide, detectFinds_positions_and_ids_ok FACTORY_ORDER (by decide)⟩

/-! ## C10 — toolkit: id inventory (no detector but the counting one ever
emits the id "two-quads") -/

theorem sameRankFrom_not_two_quads (parsed : List PCard) :
    ∀ fuel i, ∀ f ∈ sameRankFrom parsed fuel i, f.id ≠ "two-quads" := by
  intro fuel
  induction fuel with
  | zero => intro i f hf; simp [sameRankFrom] at hf
  | succ fuel ih =>
    intro i f hf
    unfold sameRankFrom at hf
    split at hf
    · dsimp only [] at hf
      rcases List.mem_append.mp hf with h | h
      · repeat' split at h
        all_goals
          first
            | (simp only [List.mem_singleton] at h; subst h; simp)
            | simp at h
      · exact ih _ f h
    · simp at hf

theorem suitedFrom_not_two_quads (parsed : List PCard) :
    ∀ fuel start, ∀ f ∈ suitedFrom parsed fuel start, f.id ≠ "two-quads" := by
  intro fuel
  induction fuel with
  | zero => intro start f hf; simp [suitedFrom] at hf
  | succ fuel ih =>
    intro start f hf
    unfold suitedFrom at hf
    split at hf
    · dsimp only [] at hf
      rcases List.mem_append.mp hf with h | h
      · repeat' split at h
        all_goals
          first
            | (simp only [List.mem_singleton] at h; subst h; simp)
            | simp at h
      · exact ih _ f h
    · simp at hf

theorem runsFrom_not_two_quads (parsed : List PCard) :
    ∀ fuel start, ∀ f ∈ runsFrom parsed fuel start, f.id ≠ "two-quads" := by
  intro fuel
  induction fuel with
  | zero => intro start f hf; simp [runsFrom] at hf
  | succ fuel ih =>
    intro start f hf
    unfold runsFrom at hf
    split at hf
    · dsimp only [] at hf
      rcases List.mem_append.mp hf with h | h
      · unfold runFindsFor at h
        dsimp only [] at h
        repeat' split at h
        all_goals
          first
            | (simp only [List.mem_singleton] at h; subst h; simp)
            | simp at h
      · exact ih _ f h
    · simp at hf

theorem colourFrom_not_two_quads (parsed : List PCard) :
    ∀ fuel start, ∀ f ∈ colourFrom parsed fuel start, f.id ≠ "two-quads" := by
  intro fuel
  induction fuel with
  | zero => intro start f hf; simp [colourFrom] at hf
  | succ fuel ih =>
    intro start f hf
    unfold colourFrom at hf
    split at hf
    · dsimp only [] at hf
      rcases List.mem_append.mp hf with h | h
      · repeat' split at h
        all_goals
          first
            | (simp only [List.mem_singleton] at h; subst h; simp)
            | simp at h
      · exact ih _ f h
    · simp at hf

theorem alternatingFrom_not_two_quads (parsed : List PCard) :
    ∀ fuel start, ∀ f ∈ alternatingFrom parsed fuel start, f.id ≠ "two-quads" := by
  intro fuel
  induction fuel with
  | zero => intro start f hf; simp [alternatingFrom] at hf
  | succ fuel ih =>
    intro start f hf
    unfold alternatingFrom at hf
    split at hf
    · dsimp only [] at hf
      rcases List.mem_append.mp hf with h | h
      · repeat' split at h
        all_goals
          first
            | (simp only [List.mem_singleton] at h; subst h; simp)
            | simp at h
      · exact ih _ f h
    · simp at hf

theorem solitaireFrom_not_two_quads (parsed : List PCard) :
    ∀ fuel start, ∀ f ∈ solitaireFrom parsed fuel start, f.id ≠ "two-quads" := by
  intro fuel
  induction fuel with
  | zero => intro start f hf; simp [solitaireFrom] at hf
  | succ fuel ih =>
    intro start f hf
    unfold solitaireFrom at hf
    split at hf
    · dsimp only [] at hf
      rcases List.mem_append.mp hf with h | h
      · repeat' split at h
        all_goals
          first
            | (simp only [List.mem_singleton] at h; subst h; simp)
            | simp at h
      · exact ih _ f h
    · simp at hf

theorem sfFrom_not_two_quads (parsed : List PCard) :
    ∀ fuel start, ∀ f ∈ sfFrom parsed fuel start, f.id ≠ "two-quads" := by
  intro fuel
  induction fuel with
  | zero => intro start f hf; simp [sfFrom] at hf
  | succ fuel ih =>
    intro start f hf
    unfold sfFrom at hf
    split at hf
    · dsimp only [] at hf
      rcases List.mem_append.mp hf with h | h
      · unfold sfFindsFor at h
        dsimp only [] at h
        repeat' split at h
        all_goals
          first
            | (simp only [List.mem_singleton] at h; subst h; simp)
            | simp at h
      · exact ih _ f h
    · simp at hf

theorem detectBlackjack_not_two_quads (parsed : List PCard) :
    ∀ f ∈ detectBlackjack parsed, f.id ≠ "two-quads" := by
  intro f hf
  unfold detectBlackjack at hf
  rcases List.mem_flatMap.mp hf with ⟨i, _, h⟩
  unfold blackjackAt at h
  dsimp only [] at h
  repeat' split at h
  all_goals
    first
      | (simp only [List.mem_singleton] at h; subst h; simp)
      | simp at h

theorem detectMirror_not_two_quads (parsed : List PCard) :
    ∀ f ∈ detectMirror parsed, f.id ≠ "two-quads" := by
  intro f hf
  unfold detectMirror at hf
  dsimp only [] at hf
  split at hf
  · simp only [List.mem_singleton] at hf; subst hf; simp
  · simp at hf

theorem detectTwoPairPattern_not_two_quads (parsed : List PCard) :
    ∀ f ∈ detectTwoPairPattern parsed, f.id ≠ "two-quads" := by
  intro f hf
  unfold detectTwoPairPattern at hf
  rcases List.mem_flatMap.mp hf with ⟨i, _, h⟩
  dsimp only [] at h
  split at h
  · simp only [List.mem_singleton] at h; subst h; simp
  · simp at h

theorem detectFullHouse_not_two_quads (parsed : List PCard) :
    ∀ f ∈ detectFullHouse parsed, f.id ≠ "two-quads" := by
  intro f hf
  unfold detectFullHouse at hf
  rcases List.mem_flatMap.mp hf with ⟨i, _, h⟩
  dsimp only [] at h
  split at h
  · simp only [List.mem_singleton] at h; subst h; simp
  · simp at h

theorem detectDeadMansHand_not_two_quads (parsed : List PCard) :
    ∀ f ∈ detectDeadMansHand parsed, f.id ≠ "two-quads" := by
  intro f hf
  unfold detectDeadMansHand at hf
  rcases List.mem_flatMap.mp hf with ⟨i, _, h⟩
  dsimp only [] at h
  split at h
  · simp only [List.mem_singleton] at h; subst h; simp
  · simp at h

theorem detectAceHigh_not_two_quads (parsed : List PCard) :
    ∀ f ∈ detectAceHigh parsed, f.id ≠ "two-quads" := by
  intro f hf
  unfold detectAceHigh at hf
  split at hf
  · simp only [List.mem_singleton] at hf; subst hf; simp
  · simp at hf

theorem detectAscendingTopFive_not_two_quads (parsed : List PCard) :
    ∀ f ∈ detectAscendingTopFive parsed, f.id ≠ "two-quads" := by
  intro f hf
  unfold detectAscendingTopFive at hf
  split at hf
  · simp at hf
  · dsimp only [] at hf
    split at hf
    · simp only [List.mem_singleton] at hf; subst hf; simp
    · simp at hf

theorem factoryFrom_not_two_quads (deck : List String) :
    ∀ fuel i rs rl, ∀ f ∈ factoryFrom deck fuel i rs rl, f.id ≠ "two-quads" := by
  intro fuel
  induction fuel with
  | zero => intro i rs rl f hf; simp [factoryFrom] at hf
  | succ fuel ih =>
    intro i rs rl f hf
    unfold factoryFrom at hf
    split at hf
    · split at hf
      · exact ih _ _ _ f hf
      · rcases List.mem_append.mp hf with h | h
        · split at h
          · simp only [List.mem_singleton] at h; subst h; simp [factoryFind]
          · simp at h
        · exact ih _ _ _ f h
    · split at hf
      · simp only [List.mem_singleton] at hf; subst hf; simp [factoryFind]
      · simp at hf

/-- Within the counting detector, a `two-quads` find's positions are the
union of the quad groups. -/
theorem counting_two_quads_positions {l : List Find} {f : Find}
    (hf : f ∈ detectCountingFinds l) (hid : f.id = "two-quads") :
    f.positions =
      (l.filter (fun g => decide (g.id = "quad"))).flatMap (fun g => g.positions) := by
  unfold detectCountingFinds at hf
  dsimp only [] at hf
  rcases List.mem_append.mp hf with h | h
  · rcases List.mem_append.mp h with h' | h'
    · split at h'
      · simp only [List.mem_singleton] at h'; subst h'; simp at hid
      · simp at h'
    · split at h'
      · simp only [List.mem_singleton] at h'; subst h'; simp at hid
      · simp at h'
  · split at h
    · simp only [List.mem_singleton] at h; subst h; rfl
    · simp at h

/-- Within the counting detector, a `two-triples` find's positions are the
union of the triple groups. -/
theorem counting_two_triples_positions {l : List Find} {f : Find}
    (hf : f ∈ detectCountingFinds l) (hid : f.id = "two-triples") :
    f.positions =
      (l.filter (fun g => decide (g.id = "triple"))).flatMap (fun g => g.positions) := by
  unfold detectCountingFinds at hf
  dsimp only [] at hf
  rcases List.mem_append.mp hf with h | h
  · rcases List.mem_append.mp h with h' | h'
    · split at h'
      · simp only [List.mem_singleton] at h'; subst h'; simp at hid
      · simp at h'
    · split at h'
      · simp only [List.mem_singleton] at h'; subst h'; rfl
      · simp at h'
  · split at h
    · simp only [List.mem_singleton] at h; subst h; simp at hid
    · simp at h

/-- The only candidates with id `two-quads` come from the counting detector,
so their positions are the union of quad groups. -/
theorem allCandidates_two_quads {deck : List String} {f : Find}
    (hf : f ∈ allCandidates deck) (hid : f.id = "two-quads") :
    f.positions = ((detectSameRankGroups (deck.map parseCard)).filter
      (fun g => decide (g.id = "quad"))).flatMap (fun g => g.positions) := by
  unfold allCandidates at hf
  dsimp only [] at hf
  rcases List.mem_append.mp hf with hf | h
  swap
  · exact absurd hid (factoryFrom_not_two_quads deck _ _ _ _ f h)
  rcases List.mem_append.mp hf with hf | h
  swap
  · exact absurd hid (detectAscendingTopFive_not_two_quads _ f h)
  rcases List.mem_append.mp hf with hf | h
  swap
  · exact absurd hid (detectAceHigh_not_two_quads _ f h)
  rcases List.mem_append.mp hf with hf | h
  swap
  · exact absurd hid (solitaireFrom_not_two_quads _ _ _ f h)
  rcases List.mem_append.mp hf with hf | h
  swap
  · exact absurd hid (detectDeadMansHand_not_two_quads _ f h)
  rcases List.mem_append.mp hf with hf | h
  swap
  · exact absurd hid (sfFrom_not_two_quads _ _ _ f h)
  rcases List.mem_append.mp hf with hf | h
  swap
  · exact absurd hid (detectFullHouse_not_two_quads _ f h)
  rcases List.mem_append.mp hf with hf | h
  swap
  · exact absurd hid (detectTwoPairPattern_not_two_quads _ f h)
  rcases List.mem_append.mp hf with hf | h
  swap
  · exact absurd hid (detectMirror_not_two_quads _ f h)
  rcases List.mem_append.mp hf with hf | h
  swap
  · exact counting_two_quads_positions h hid
  rcases List.mem_append.mp hf with hf | h
  swap
  · exact absurd hid (detectBlackjack_not_two_quads _ f h)
  rcases List.mem_append.mp hf with hf | h
  swap
  · exact absurd hid (alternatingFrom_not_two_quads _ _ _ f h)
  rcases List.mem_append.mp hf with hf | h
  swap
  · exact absurd hid (colourFrom_not_two_quads _ _ _ f h)
  rcases List.mem_append.mp hf with hf | h
  swap
  · exact absurd hid (runsFrom_not_two_quads _ _ _ f h)
  rcases List.mem_append.mp hf with hf | h
  swap
  · exact absurd hid (suitedFrom_not_two_quads _ _ _ f h)
  exact absurd hid (sameRankFrom_not_two_quads _ _ _ f hf)

/-- Triple groups and quad groups occupy disjoint positions. -/
theorem quad_triple_positions_disjoint (parsed : List PCard) :
    ∀ p ∈ ((detectSameRankGroups parsed).filter
        (fun g => decide (g.id = "triple"))).flatMap (fun g => g.positions),
      p ∉ ((detectSameRankGroups parsed).filter
        (fun g => decide (g.id = "quad"))).flatMap (fun g => g.positions) := by
  intro p hp hq
  rcases List.mem_flatMap.mp hp with ⟨g, hg, hpg⟩
  rcases List.mem_flatMap.mp hq with ⟨h, hh, hph⟩
  have hgid : g.id = "triple" := by simpa using (List.mem_filter.mp hg).2
  have hhid : h.id = "quad" := by simpa using (List.mem_filter.mp hh).2
  have hne : g ≠ h := by
    intro hc
    rw [hc, hhid] at hgid
    exact absurd hgid (by decide)
  have hpw : (detectSameRankGroups parsed).Pairwise
      (fun a b => ∀ x ∈ a.positions, ∀ y ∈ b.positions, x ≠ y) :=
    (sameRankFrom_ordered parsed _ _).imp
      (fun hab x hx y hy => Nat.ne_of_lt (hab x hx y hy))
  have hsymm : Symmetric (fun a b : Find => ∀ x ∈ a.positions, ∀ y ∈ b.positions, x ≠ y) :=
    fun a b hab y hy x hx => (hab x hx y hy).symm
  exact hpw.forall hsymm (List.mem_of_mem_filter hg) (List.mem_of_mem_filter hh)
    hne p hpg p hph rfl

/-- A find that is none of the member ids survives step 1. -/
theorem countingSuppress_mem {finds : List Find} {f : Find} (hf : f ∈ finds)
    (h1 : f.id ≠ "pair") (h2 : f.id ≠ "triple") (h3 : f.id ≠ "quad") :
    f ∈ countingSuppress finds := by
  have step : ∀ (c : Bool) (l : List Find) (q : Find → Bool),
      f ∈ l → q f = true → f ∈ (if c = true then l.filter q else l) := by
    intro c l q hl hq
    split
    · exact List.mem_filter.mpr ⟨hl, hq⟩
    · exact hl
  unfold countingSuppress
  dsimp only []
  exact step _ _ _ (step _ _ _ (step _ _ _ hf (by simpa using h1))
    (by simpa using h2)) (by simpa using h3)

/-- A find survives the whole rule fold if, for every rule naming it a
loser, it overlaps no possible winner. -/
theorem foldRules_mem {rules : List Rule} :
    ∀ {s f}, f ∈ s →
      (∀ r ∈ rules, f.id ∈ r.losers → ∀ w ∈ s, w.id = r.winner →
        positionsOverlap w.positions f.positions = false) →
      f ∈ List.foldl applyRule s rules := by
  induction rules with
  | nil => intro s f hf _; exact hf
  | cons r0 rest ih =>
    intro s f hf h
    rw [List.foldl_cons]
    have hf' : f ∈ applyRule s r0 := by
      unfold applyRule
      dsimp only []
      split
      · exact hf
      · apply List.mem_filter.mpr
        refine ⟨hf, ?_⟩
        by_cases hfl : f.id ∈ r0.losers
        · simp only [Bool.or_eq_true, Bool.not_eq_true']
          right
          rw [List.any_eq_false]
          intro w hw
          have := h r0 (by simp) hfl w (List.mem_of_mem_filter hw)
            (by simpa using (List.mem_filter.mp hw).2)
          simp [this]
        · simp only [Bool.or_eq_true, Bool.not_eq_true']
          left
          simpa using hfl
    exact ih hf' (fun r hr hfl w hw hww =>
      h r (by simp [hr]) hfl w (applyRule_subset hw) hww)

/-- Ids present in the candidates stay present through the dedup pass. -/
theorem ids_foldl_upsert {y : String} : ∀ (l m : List Find),
    (y ∈ m.map (fun g => g.id) ∨ y ∈ l.map (fun g => g.id)) →
    y ∈ (List.foldl upsertBest m l).map (fun g => g.id) := by
  intro l
  induction l with
  | nil =>
    intro m hm
    rcases hm with hm | hm
    · exact hm
    · simp at hm
  | cons a rest ih =>
    intro m hm
    rw [List.foldl_cons]
    apply ih
    rcases hm with hm | hm
    · exact Or.inl (ids_upsertBest.mpr (Or.inl hm))
    · simp only [List.map_cons, List.mem_cons] at hm
      rcases hm with rfl | hm
      · exact Or.inl (ids_upsertBest.mpr (Or.inr rfl))
      · exact Or.inr hm

theorem ids_bestById_of_mem {l : List Find} {y : String}
    (h : y ∈ l.map (fun g => g.id)) : y ∈ (bestById l).map (fun g => g.id) :=
  ids_foldl_upsert l [] (Or.inr h)

/-! ## C10 — two-quads never removes the two-triples find -/

/-- Claim C10: On every valid 52-card deck producing both a `two-quads` and a
`two-triples` counting find, their position sets are disjoint (quad and
triple groups are distinct maximal same-rank groups), so the Reconciler's
"Two Quads suppresses Two Triples" rule never fires: both finds reach the
final result. -/
theorem two_quads_never_removes_two_triples :
    ∀ deck : List String, ValidDeck deck →
      ∀ tq ∈ detectCountingFinds (detectSameRankGroups (deck.map parseCard)),
        ∀ tt ∈ detectCountingFinds (detectSameRankGroups (deck.map parseCard)),
          tq.id = "two-quads" → tt.id = "two-triples" →
          (∀ p ∈ tt.positions, p ∉ tq.positions) ∧
          (∃ f ∈ detectFinds deck, f.id = "two-triples") ∧
          (∃ f ∈ detectFinds deck, f.id = "two-quads") := by
  intro deck _ tq htq tt htt hqid htid
  have hqpos := counting_two_quads_positions htq hqid
  have htpos := counting_two_triples_positions htt htid
  have hdisj : ∀ p ∈ tt.positions, p ∉ tq.positions := by
    rw [hqpos, htpos]
    exact fun p hp => quad_triple_positions_disjoint (deck.map parseCard) p hp
  have hmemA : ∀ g ∈ detectCountingFinds (detectSameRankGroups (deck.map parseCard)),
      g ∈ allCandidates deck := by
    intro g hg
    unfold allCandidates
    dsimp only []
    exact List.mem_append_left _ (List.mem_append_left _ (List.mem_append_left _
      (List.mem_append_left _ (List.mem_append_left _ (List.mem_append_left _
      (List.mem_append_left _ (List.mem_append_left _ (List.mem_append_left _
      (List.mem_append_right _ hg)))))))))
  have houtid : ∀ g ∈ detectCountingFinds (detectSameRankGroups (deck.map parseCard)),
      (∀ r ∈ SUPPRESSION_RULES, g.id ∈ r.losers →
        ∀ w ∈ countingSuppress (allCandidates deck), w.id = r.winner →
          positionsOverlap w.positions g.positions = false) →
      g.id ≠ "pair" → g.id ≠ "triple" → g.id ≠ "quad" →
      ∃ f ∈ detectFinds deck, f.id = g.id := by
    intro g hg hrules hp ht hq
    have h1 : g ∈ countingSuppress (allCandidates deck) :=
      countingSuppress_mem (hmemA g hg) hp ht hq
    have h2 : g ∈ List.foldl applyRule (countingSuppress (allCandidates deck))
        SUPPRESSION_RULES := foldRules_mem h1 hrules
    have h3 : g.id ∈ (bestById (List.foldl applyRule
        (countingSuppress (allCandidates deck)) SUPPRESSION_RULES)).map
        (fun x => x.id) :=
      ids_bestById_of_mem (List.mem_map.mpr ⟨g, h2, rfl⟩)
    rcases List.mem_map.mp h3 with ⟨f0, hf0, hid0⟩
    exact ⟨{ f0 with isNew := true }, mem_detectFinds.mpr ⟨f0, hf0, rfl⟩, hid0⟩
  have hrulesT : ∀ r ∈ SUPPRESSION_RULES, tt.id ∈ r.losers →
      ∀ w ∈ countingSuppress (allCandidates deck), w.id = r.winner →
        positionsOverlap w.positions tt.positions = false := by
    intro r hr hfl w hw hww
    simp only [SUPPRESSION_RULES, List.mem_cons, List.not_mem_nil, or_false] at hr
    rcases hr with rfl | rfl | rfl | rfl | rfl
    · rw [htid] at hfl; exact absurd hfl (by decide)
    · rw [htid] at hfl; exact absurd hfl (by decide)
    · rw [htid] at hfl; exact absurd hfl (by decide)
    · rw [htid] at hfl; exact absurd hfl (by decide)
    · have hwpos := allCandidates_two_quads (countingSuppress_subset hw) hww
      unfold positionsOverlap
      rw [List.any_eq_false]
      intro p hp
      have hpn : p ∉ w.positions := by
        rw [hwpos]
        rw [htpos] at hp
        exact quad_triple_positions_disjoint (deck.map parseCard) p hp
      simpa using hpn
  have hrulesQ : ∀ r ∈ SUPPRESSION_RULES, tq.id ∈ r.losers →
      ∀ w ∈ countingSuppress (allCandidates deck), w.id = r.winner →
        positionsOverlap w.positions tq.positions = false := by
    intro r hr hfl w hw hww
    simp only [SUPPRESSION_RULES, List.mem_cons, List.not_mem_nil, or_false] at hr
    rcases hr with rfl | rfl | rfl | rfl | rfl <;>
      (rw [hqid] at hfl; exact absurd hfl (by decide))
  refine ⟨hdisj, ?_, ?_⟩
  · have h := houtid tt htt hrulesT (by rw [htid]; decide) (by rw [htid]; decide)
      (by rw [htid]; decide)
    rw [htid] at h
    exact h
  · have h := houtid tq htq hrulesQ (by rw [hqid]; decide) (by rw [hqid]; decide)
      (by rw [hqid]; decide)
    rw [hqid] at h
    exact h

/-- A valid deck holding two quads (Aces, Kings) and two triples (Queens,
Jacks); concrete input for the C10 witness. -/
def TwoQuadsDeck : List String :=
  ["A♠","A♥","A♦","A♣","K♠","K♥","K♦","K♣","Q♠","Q♥","Q♦","J♠","J♥","J♦",
   "Q♣","J♣","10♠","9♠","8♠","7♠","6♠","5♠","4♠","3♠","2♠",
   "10♥","9♥","8♥","7♥","6♥","5♥","4♥","3♥","2♥",
   "10♦","9♦","8♦","7♦","6♦","5♦","4♦","3♦","2♦",
   "10♣","9♣","8♣","7♣","6♣","5♣","4♣","3♣","2♣"]

/-- The counting find for the two quads of `TwoQuadsDeck`. -/
def twoQuadsFind : Find :=
  { id := "two-quads", name := "Two Quads", icon := "🃏", color := "#fb7185",
    rarity := "Extraordinary", positions := [0, 1, 2, 3, 4, 5, 6, 7] }

/-- The counting find for the two triples of `TwoQuadsDeck`. -/
def twoTriplesFind : Find :=
  { id := "two-triples", name := "Two Triples", icon := "🃏", color := "#60a5fa",
    rarity := "Rare", positions := [8, 9, 10, 11, 12, 13] }

/-- Witness for C10 at a concrete input. -/
theorem two_quads_never_removes_two_triples_witness :
    ValidDeck TwoQuadsDeck ∧
      twoQuadsFind ∈ detectCountingFinds (detectSameRankGroups
        (TwoQuadsDeck.map parseCard)) ∧
      twoTriplesFind ∈ detectCountingFinds (detectSameRankGroups
        (TwoQuadsDeck.map parseCard)) ∧
      ((∀ p ∈ twoTriplesFind.positions, p ∉ twoQuadsFind.positions) ∧
        (∃ f ∈ detectFinds TwoQuadsDeck, f.id = "two-triples") ∧
        (∃ f ∈ detectFinds TwoQuadsDeck, f.id = "two-quads")) :=
  ⟨by decide, by decide, by decide,
    two_quads_never_removes_two_triples TwoQuadsDeck (by decide)
      twoQuadsFind (by decide) twoTriplesFind (by decide) (by decide) (by decide)⟩

/-! ## C2 — maximality of the Rank-Runs detector -/

/-- A maximal run of strictly ascending consecutive values occupying
`[s, s+l)`: every interior card continues the chain and the run extends
neither to the left nor to the right. -/
def maximalRun (parsed : List PCard) (s l : Nat) : Prop :=
  0 < l ∧ s + l ≤ parsed.length ∧
    (∀ k < s + l, s < k → runChain parsed k) ∧
    (s = 0 ∨ ¬ runChain parsed s) ∧
    (s + l = parsed.length ∨ ¬ runChain parsed (s + l))

instance (parsed : List PCard) (s l : Nat) : Decidable (maximalRun parsed s l) := by
  unfold maximalRun; infer_instance

/-- The claim's extension bit for a maximal run `[s, s+l)`: one extra
position when the run's last card is a King and the next card an Ace. -/
def runExt (parsed : List PCard) (s l : Nat) : Nat :=
  if aceExtension parsed (s + l) then 1 else 0

/-- The run's first card is an Ace that the preceding scan segment already
consumed through its King-to-Ace extension. -/
def consumedAce (parsed : List PCard) (s : Nat) : Prop :=
  0 < s ∧ (cardAt parsed (s - 1)).value = 13 ∧ (cardAt parsed s).rank = "A"

instance (parsed : List PCard) (s : Nat) : Decidable (consumedAce parsed s) := by
  unfold consumedAce; infer_instance

/-- Every card slot of a token deck holds a parsed token (possibly the
out-of-range default `parseCard ""`). -/
theorem cardAt_map_parseCard (deck : List String) (i : Nat) :
    ∃ t, cardAt (deck.map parseCard) i = parseCard t := by
  unfold cardAt
  by_cases h : i < deck.length
  · refine ⟨deck[i], ?_⟩
    rw [List.getD_eq_getElem _ _ (by simpa using h)]
    simp
  · refine ⟨"", ?_⟩
    rw [List.getD_eq_default]
    simpa using Nat.not_lt.mp h

/-- On parsed tokens, an Ace always carries value 1 (so a value-13 card is
never an Ace). -/
theorem parseCard_ace_value (t : String) :
    (parseCard t).rank = "A" → (parseCard t).value = 1 := by
  intro hA
  have hv : (parseCard t).value = rankValue ((parseCard t).rank) := rfl
  rw [hv, hA]
  rfl

/-- Rank/value coherence for decks of tokens. -/
theorem deck_ace_value (deck : List String) (i : Nat) :
    (cardAt (deck.map parseCard) i).rank = "A" →
      (cardAt (deck.map parseCard) i).value = 1 := by
  rcases cardAt_map_parseCard deck i with ⟨t, ht⟩
  rw [ht]
  exact parseCard_ace_value t

/-- The scan never crosses the left boundary of a maximal run. -/
theorem runEndAt_le_of_lt {parsed : List PCard} {s l t : Nat}
    (hmax : maximalRun parsed s l) (ht : t < s) : runEndAt parsed t ≤ s := by
  by_contra hc
  push_neg at hc
  have := scanEnd_holds parsed.length (runChain parsed) _ (t + 1) s (by omega) hc
  rcases hmax.2.2.2.1 with h0 | hnc
  · omega
  · exact hnc this.2

/-- On a maximal run the scan breaks exactly at the run's right end. -/
theorem runEndAt_eq {parsed : List PCard} {s l : Nat}
    (hmax : maximalRun parsed s l) : runEndAt parsed s = s + l := by
  rcases hmax with ⟨hl, hle, hchain, _, hright⟩
  apply scanEnd_eq
  · omega
  · omega
  · intro k hk1 hk2
    exact ⟨by omega, hchain k (by omega) (by omega)⟩
  · rcases hright with h | h
    · omega
    · intro hc
      exact h hc.2

/-- Scanning from the second card of a maximal run also breaks at the run's
right end. -/
theorem runEndAt_eq_sub {parsed : List PCard} {s l : Nat}
    (hmax : maximalRun parsed s l) (hl2 : 2 ≤ l) :
    runEndAt parsed (s + 1) = s + l := by
  rcases hmax with ⟨hl, hle, hchain, _, hright⟩
  apply scanEnd_eq
  · omega
  · omega
  · intro k hk1 hk2
    exact ⟨by omega, hchain k (by omega) (by omega)⟩
  · rcases hright with h | h
    · omega
    · intro hc
      exact h hc.2

/-- A scan segment starting before a maximal run ends at or before the run's
start — except that it may consume the run's leading Ace, ending exactly one
past it. -/
theorem runSegEnd_le_of_lt {parsed : List PCard} {s l t : Nat}
    (hmax : maximalRun parsed s l) (ht : t < s) :
    runSegEnd parsed t ≤ s + 1 ∧
      (runSegEnd parsed t = s + 1 → consumedAce parsed s) := by
  have hend := runEndAt_le_of_lt hmax ht
  unfold runSegEnd
  dsimp only []
  split
  · next hext =>
    refine ⟨by omega, ?_⟩
    intro heq
    have hi : runEndAt parsed t = s := by omega
    rw [hi] at hext
    exact ⟨by omega, hext.2.1, hext.2.2⟩
  · exact ⟨by omega, by omega⟩

/-- In the non-consumed case a segment from the left stops at or before the
run start. -/
theorem runSegEnd_le_of_lt_nc {parsed : List PCard} {s l t : Nat}
    (hmax : maximalRun parsed s l) (ht : t < s)
    (hnc : ¬ consumedAce parsed s) : runSegEnd parsed t ≤ s := by
  rcases runSegEnd_le_of_lt hmax ht with ⟨h1, h2⟩
  by_cases he : runSegEnd parsed t = s + 1
  · exact absurd (h2 he) hnc
  · omega

/-- In the consumed case the scan skips the run's leading Ace: no segment
ends exactly at the run start (rank/value coherence is needed: the King
before the Ace is itself no Ace). -/
theorem runSegEnd_ne_of_lt_c (deck : List String) {s l t : Nat}
    (hmax : maximalRun (deck.map parseCard) s l) (ht : t < s)
    (hc : consumedAce (deck.map parseCard) s) :
    runSegEnd (deck.map parseCard) t ≠ s := by
  intro heq
  have hend := runEndAt_le_of_lt hmax ht
  have hsn : s < (deck.map parseCard).length := by
    have := hmax.2.1
    have := hmax.1
    omega
  unfold runSegEnd at heq
  dsimp only [] at heq
  split at heq
  · next hext =>
    have hi : runEndAt (deck.map parseCard) t = s - 1 := by omega
    rw [hi] at hext
    have hA : (cardAt (deck.map parseCard) (s - 1)).rank = "A" := hext.2.2
    have hv1 := deck_ace_value deck (s - 1) hA
    have hv13 := hc.2.1
    rw [hv13] at hv1
    exact absurd hv1 (by decide)
  · next hnoext =>
    apply hnoext
    rw [heq]
    exact ⟨hsn, hc.2.1, hc.2.2⟩

/-- Segment end at the start of a maximal run: the full (possibly
Ace-extended) run. -/
theorem runSegEnd_at_start {parsed : List PCard} {s l : Nat}
    (hmax : maximalRun parsed s l) :
    runSegEnd parsed s = s + l + runExt parsed s l := by
  unfold runSegEnd runExt
  dsimp only []
  rw [runEndAt_eq hmax]
  split
  · rfl
  · omega

/-- Segment end from the card after a consumed Ace. -/
theorem runSegEnd_at_sub {parsed : List PCard} {s l : Nat}
    (hmax : maximalRun parsed s l) (hl2 : 2 ≤ l) :
    runSegEnd parsed (s + 1) = s + l + runExt parsed s l := by
  unfold runSegEnd runExt
  dsimp only []
  rw [runEndAt_eq_sub hmax hl2]
  split
  · rfl
  · omega

/-- A run segment pushes either nothing (too short) or exactly one find
covering it. -/
theorem runFindsFor_cases (start e : Nat) :
    (runFindsFor start e = [] ∧ e - start < 3) ∨
      (∃ f, runFindsFor start e = [f] ∧
        f.positions = List.range' start (e - start) ∧ 3 ≤ e - start) := by
  unfold runFindsFor
  dsimp only []
  by_cases h3 : e - start ≥ 3
  · rw [if_pos h3]
    right
    repeat' split
    all_goals exact ⟨_, rfl, rfl, h3⟩
  · rw [if_neg h3]
    exact Or.inl ⟨rfl, by omega⟩

/-- Output shape of the rank-run scanner, with the emission threshold. -/
theorem runsFrom_shape3 (parsed : List PCard) :
    ∀ fuel start, ∀ f ∈ runsFrom parsed fuel start,
      ∃ w len, f.positions = List.range' w len ∧ 3 ≤ len ∧ start ≤ w ∧
        w + len ≤ parsed.length := by
  intro fuel
  induction fuel with
  | zero => intro start f hf; simp [runsFrom] at hf
  | succ fuel ih =>
    intro start f hf
    unfold runsFrom at hf
    split at hf
    · next hlt =>
      dsimp only [] at hf
      rcases List.mem_append.mp hf with h | h
      · rcases runSegEnd_bounds parsed start hlt with ⟨h1, h2⟩
        rcases runFindsFor_cases start (runSegEnd parsed start) with ⟨hnil, _⟩ | ⟨g, hg, hgp, hg3⟩
        · rw [hnil] at h; simp at h
        · rw [hg] at h
          simp only [List.mem_singleton] at h
          subst h
          exact ⟨start, runSegEnd parsed start - start, hgp, hg3, Nat.le_refl _, by omega⟩
      · rcases ih _ f h with ⟨w, len, hh1, hh2, hh3, hh4⟩
        rcases runSegEnd_bounds parsed start hlt with ⟨h1, h2⟩
        exact ⟨w, len, hh1, hh2, by omega, hh4⟩
    · simp at hf

/-- No find of a scan started beyond `s` covers a range starting at `s`. -/
theorem runsFrom_countP_zero_of_lt (parsed : List PCard) {s L : Nat} (hL : 0 < L) :
    ∀ fuel u, s < u →
      (runsFrom parsed fuel u).countP
        (fun f => f.positions = List.range' s L) = 0 := by
  intro fuel u hu
  rw [List.countP_eq_zero]
  intro f hf
  rcases runsFrom_shape3 parsed fuel u f hf with ⟨w, len, h1, h2, h3, _⟩
  simp only [decide_eq_true_eq]
  intro hc
  rw [hc] at h1
  have hw : w ∈ List.range' s L := by
    rw [h1]
    exact List.mem_range'_1.mpr ⟨Nat.le_refl _, by omega⟩
  have hs : s ∈ List.range' w len := by
    rw [← h1]
    exact List.mem_range'_1.mpr ⟨Nat.le_refl _, by omega⟩
  have := List.mem_range'_1.mp hw
  have := List.mem_range'_1.mp hs
  omega

/-- Non-consumed case: starting anywhere at or before a maximal run, the
scan emits exactly one find whose positions are the (possibly Ace-extended)
run. -/
theorem runsFrom_count_nc {parsed : List PCard} {s l : Nat}
    (hmax : maximalRun parsed s l) (hl : 3 ≤ l)
    (hnc : ¬ consumedAce parsed s) :
    ∀ fuel t, parsed.length ≤ t + fuel → t ≤ s →
      (runsFrom parsed fuel t).countP
        (fun f => f.positions = List.range' s (l + runExt parsed s l)) = 1 := by
  have hsn : s < parsed.length := by
    have h1 := hmax.2.1
    have h2 := hmax.1
    omega
  intro fuel
  induction fuel with
  | zero =>
    intro t hft hts
    exfalso
    omega
  | succ fuel ih =>
    intro t hft hts
    unfold runsFrom
    rw [if_pos (show t < parsed.length by omega)]
    dsimp only []
    rw [List.countP_append]
    rcases Nat.eq_or_lt_of_le hts with rfl | hlt
    · rw [runSegEnd_at_start hmax]
      rcases runFindsFor_cases t (t + l + runExt parsed t l) with ⟨_, hlt3⟩ | ⟨g, hg, hgp, _⟩
      · exfalso
        unfold runExt at hlt3
        split at hlt3 <;> omega
      · rw [hg]
        have hgp' : g.positions = List.range' t (l + runExt parsed t l) := by
          rw [hgp]
          congr 1
          omega
        have hhead : List.countP
            (fun f => f.positions = List.range' t (l + runExt parsed t l)) [g] = 1 := by
          simp [List.countP_cons, hgp']
        rw [hhead, runsFrom_countP_zero_of_lt parsed
          (show 0 < l + runExt parsed t l by omega) fuel _ (by omega)]
    · have hseg := runSegEnd_le_of_lt_nc hmax hlt hnc
      have hsegge := (runSegEnd_bounds parsed t (by omega)).1
      have hhead : List.countP
          (fun f => f.positions = List.range' s (l + runExt parsed s l))
          (runFindsFor t (runSegEnd parsed t)) = 0 := by
        rcases runFindsFor_cases t (runSegEnd parsed t) with ⟨hnil, _⟩ | ⟨g, hg, hgp, hg3⟩
        · rw [hnil, List.countP_nil]
        · rw [hg]
          have hne : ¬ (g.positions = List.range' s (l + runExt parsed s l)) := by
            rw [hgp]
            intro hcc
            have ht1 : t ∈ List.range' t (runSegEnd parsed t - t) :=
              List.mem_range'_1.mpr ⟨Nat.le_refl _, by omega⟩
            rw [hcc] at ht1
            have := List.mem_range'_1.mp ht1
            omega
          simp [List.countP_cons, hne]
      rw [hhead, ih _ (by omega) (by omega)]

/-- Non-consumed case: every emitted find lies wholly before the maximal
run, is exactly the (extended) run, or lies wholly after it. -/
theorem runsFrom_shape_nc {parsed : List PCard} {s l : Nat}
    (hmax : maximalRun parsed s l) (hl : 3 ≤ l)
    (hnc : ¬ consumedAce parsed s) :
    ∀ fuel t, parsed.length ≤ t + fuel → t ≤ s →
      ∀ f ∈ runsFrom parsed fuel t, ∃ w len, f.positions = List.range' w len ∧
        3 ≤ len ∧ (w + len ≤ s ∨ (w = s ∧ len = l + runExt parsed s l) ∨
          s + (l + runExt parsed s l) ≤ w) := by
  have hsn : s < parsed.length := by
    have h1 := hmax.2.1
    have h2 := hmax.1
    omega
  intro fuel
  induction fuel with
  | zero =>
    intro t hft hts
    exfalso
    omega
  | succ fuel ih =>
    intro t hft hts f hf
    unfold runsFrom at hf
    rw [if_pos (show t < parsed.length by omega)] at hf
    dsimp only [] at hf
    rcases Nat.eq_or_lt_of_le hts with rfl | hlt
    · rw [runSegEnd_at_start hmax] at hf
      rcases List.mem_append.mp hf with h | h
      · rcases runFindsFor_cases t (t + l + runExt parsed t l) with ⟨hnil, _⟩ | ⟨g, hg, hgp, _⟩
        · rw [hnil] at h; simp at h
        · rw [hg] at h
          simp only [List.mem_singleton] at h
          subst h
          refine ⟨t, l + runExt parsed t l, ?_, by omega, Or.inr (Or.inl ⟨rfl, rfl⟩)⟩
          rw [hgp]
          congr 1
          omega
      · rcases runsFrom_shape3 parsed fuel _ f h with ⟨w, len, h1, h2, h3, _⟩
        exact ⟨w, len, h1, h2, Or.inr (Or.inr (by omega))⟩
    · rcases List.mem_append.mp hf with h | h
      · have hseg := runSegEnd_le_of_lt_nc hmax hlt hnc
        rcases runFindsFor_cases t (runSegEnd parsed t) with ⟨hnil, _⟩ | ⟨g, hg, hgp, hg3⟩
        · rw [hnil] at h; simp at h
        · rw [hg] at h
          simp only [List.mem_singleton] at h
          subst h
          have hsegge := (runSegEnd_bounds parsed t (by omega)).1
          exact ⟨t, runSegEnd parsed t - t, hgp, hg3, Or.inl (by omega)⟩
      · have hseg := runSegEnd_le_of_lt_nc hmax hlt hnc
        have hsegge := (runSegEnd_bounds parsed t (by omega)).1
        exact ih _ (by omega) (by omega) f h

/-- Consumed case: the sub-run after the Ace is emitted exactly once. -/
theorem runsFrom_count_c (deck : List String) {s l : Nat}
    (hmax : maximalRun (deck.map parseCard) s l) (hl : 4 ≤ l)
    (hc : consumedAce (deck.map parseCard) s) :
    ∀ fuel t, (deck.map parseCard).length ≤ t + fuel → (t < s ∨ t = s + 1) →
      (runsFrom (deck.map parseCard) fuel t).countP
        (fun f => f.positions = List.range' (s + 1)
          ((l - 1) + runExt (deck.map parseCard) s l)) = 1 := by
  have hln := hmax.2.1
  have hsn : s < (deck.map parseCard).length := by
    have h2 := hmax.1
    omega
  intro fuel
  induction fuel with
  | zero =>
    intro t hft hts
    exfalso
    rcases hts with h | rfl <;> omega
  | succ fuel ih =>
    intro t hft hts
    unfold runsFrom
    rw [if_pos (show t < (deck.map parseCard).length by rcases hts with h | rfl <;> omega)]
    dsimp only []
    rw [List.countP_append]
    rcases hts with hlt | rfl
    · have hseg := (runSegEnd_le_of_lt hmax hlt).1
      have hne := runSegEnd_ne_of_lt_c deck hmax hlt hc
      have hsegge := (runSegEnd_bounds (deck.map parseCard) t (by omega)).1
      have hhead : List.countP
          (fun f => f.positions = List.range' (s + 1)
            ((l - 1) + runExt (deck.map parseCard) s l))
          (runFindsFor t (runSegEnd (deck.map parseCard) t)) = 0 := by
        rcases runFindsFor_cases t (runSegEnd (deck.map parseCard) t) with
          ⟨hnil, _⟩ | ⟨g, hg, hgp, hg3⟩
        · rw [hnil, List.countP_nil]
        · rw [hg]
          have hneq : ¬ (g.positions = List.range' (s + 1)
              ((l - 1) + runExt (deck.map parseCard) s l)) := by
            rw [hgp]
            intro hcc
            have ht1 : t ∈ List.range' t (runSegEnd (deck.map parseCard) t - t) :=
              List.mem_range'_1.mpr ⟨Nat.le_refl _, by omega⟩
            rw [hcc] at ht1
            have := List.mem_range'_1.mp ht1
            omega
          simp [List.countP_cons, hneq]
      rw [hhead, ih _ (by omega) (by omega)]
    · rw [runSegEnd_at_sub hmax (by omega)]
      rcases runFindsFor_cases (s + 1) (s + l + runExt (deck.map parseCard) s l) with
        ⟨_, hlt3⟩ | ⟨g, hg, hgp, _⟩
      · exfalso
        unfold runExt at hlt3
        split at hlt3 <;> omega
      · rw [hg]
        have hgp' : g.positions = List.range' (s + 1)
            ((l - 1) + runExt (deck.map parseCard) s l) := by
          rw [hgp]
          congr 1
          omega
        have hhead : List.countP
            (fun f => f.positions = List.range' (s + 1)
              ((l - 1) + runExt (deck.map parseCard) s l)) [g] = 1 := by
          simp [List.countP_cons, hgp']
        rw [hhead, runsFrom_countP_zero_of_lt (deck.map parseCard)
          (show 0 < (l - 1) + runExt (deck.map parseCard) s l by omega) fuel _ (by omega)]

/-- Consumed case: no single find covers both the leading Ace and the card
after it. -/
theorem runsFrom_nocover_c (deck : List String) {s l : Nat}
    (hmax : maximalRun (deck.map parseCard) s l) (hl : 3 ≤ l)
    (hc : consumedAce (deck.map parseCard) s) :
    ∀ fuel t, (deck.map parseCard).length ≤ t + fuel → (t < s ∨ t = s + 1) →
      ∀ f ∈ runsFrom (deck.map parseCard) fuel t,
        ¬ (s ∈ f.positions ∧ s + 1 ∈ f.positions) := by
  have hln := hmax.2.1
  have hsn : s < (deck.map parseCard).length := by
    have h2 := hmax.1
    omega
  intro fuel
  induction fuel with
  | zero => intro t _ _ f hf; simp [runsFrom] at hf
  | succ fuel ih =>
    intro t hft hts f hf
    rcases hts with hlt | rfl
    · unfold runsFrom at hf
      rw [if_pos (show t < (deck.map parseCard).length by omega)] at hf
      dsimp only [] at hf
      rcases List.mem_append.mp hf with h | h
      · rcases runFindsFor_cases t (runSegEnd (deck.map parseCard) t) with
          ⟨hnil, _⟩ | ⟨g, hg, hgp, _⟩
        · rw [hnil] at h; simp at h
        · rw [hg] at h
          simp only [List.mem_singleton] at h
          subst h
          rintro ⟨h1, h2⟩
          rw [hgp] at h2
          have hm := List.mem_range'_1.mp h2
          have hseg := (runSegEnd_le_of_lt hmax hlt).1
          omega
      · have hseg := (runSegEnd_le_of_lt hmax hlt).1
        have hne := runSegEnd_ne_of_lt_c deck hmax hlt hc
        have hsegge := (runSegEnd_bounds (deck.map parseCard) t (by omega)).1
        exact ih _ (by omega) (by omega) f h
    · rintro ⟨h1, h2⟩
      rcases runsFrom_shape3 (deck.map parseCard) _ _ f hf with ⟨w, len, hp, _, hw, _⟩
      rw [hp] at h1
      have := List.mem_range'_1.mp h1
      omega

/-- Claim C2, counterexample: On the Factory Order deck, `[13, 26)` (A♦…K♦)
is a maximal ascending run of length 13 whose leading Ace was consumed by
the King-to-Ace extension of the preceding spade run.  The detector emits no
find covering the run's positions, and it does emit a strictly shorter find
contained inside it (the run over `[14, 26)`), contradicting the claim. -/
theorem maximal_run_not_always_reported :
    ValidDeck FACTORY_ORDER ∧
      maximalRun (FACTORY_ORDER.map parseCard) 13 13 ∧ 3 ≤ 13 ∧
      consumedAce (FACTORY_ORDER.map parseCard) 13 ∧
      runExt (FACTORY_ORDER.map parseCard) 13 13 = 0 ∧
      (detectRuns (FACTORY_ORDER.map parseCard)).countP
        (fun f => f.positions = List.range' 13 13) = 0 ∧
      ∃ f ∈ detectRuns (FACTORY_ORDER.map parseCard),
        (∀ p ∈ f.positions, p ∈ List.range' 13 13) ∧ f.positions.length < 13 := by
  decide

/-- Claim C2, amended: For every valid 52-card deck and every maximal
strictly-ascending run `[s, s+l)` with `l ≥ 3`:
* if the run's first card is *not* an Ace consumed by the preceding
  segment's King-to-Ace extension, the detector emits exactly one find whose
  positions are the run extended by the King-to-Ace rule, and no find whose
  positions lie strictly inside those of the run;
* if it *is* such a consumed Ace, no emitted find covers both the Ace and
  the following card (so no find covers the run), and only the sub-run after
  the Ace is scanned: for `l ≥ 4` it is emitted as exactly one find, with
  its own King-to-Ace extension. -/
theorem rank_runs_maximality :
    ∀ deck : List String, ValidDeck deck → ∀ s l : Nat,
      maximalRun (deck.map parseCard) s l → 3 ≤ l →
      (¬ consumedAce (deck.map parseCard) s →
        (detectRuns (deck.map parseCard)).countP
          (fun f => f.positions =
            List.range' s (l + runExt (deck.map parseCard) s l)) = 1 ∧
        ∀ f ∈ detectRuns (deck.map parseCard),
          ¬ ((∀ p ∈ f.positions,
              p ∈ List.range' s (l + runExt (deck.map parseCard) s l)) ∧
            f.positions.length < l + runExt (deck.map parseCard) s l)) ∧
      (consumedAce (deck.map parseCard) s →
        (∀ f ∈ detectRuns (deck.map parseCard),
          ¬ (s ∈ f.positions ∧ s + 1 ∈ f.positions)) ∧
        (4 ≤ l →
          (detectRuns (deck.map parseCard)).countP
            (fun f => f.positions = List.range' (s + 1)
              ((l - 1) + runExt (deck.map parseCard) s l)) = 1)) := by
  intro deck _ s l hmax hl
  constructor
  · intro hnc
    constructor
    · exact runsFrom_count_nc hmax hl hnc _ 0 (by omega) (by omega)
    · intro f hf
      rintro ⟨hsub, hlen⟩
      rcases runsFrom_shape_nc hmax hl hnc _ 0 (by omega) (by omega) f hf with
        ⟨w, len, hp, h3, hcase⟩
      have hwmem : w ∈ f.positions := by
        rw [hp]
        exact List.mem_range'_1.mpr ⟨Nat.le_refl _, by omega⟩
      have hwin := List.mem_range'_1.mp (hsub w hwmem)
      rcases hcase with hA | ⟨rfl, rfl⟩ | hC
      · omega
      · rw [hp, List.length_range'] at hlen
        omega
      · omega
  · intro hc
    constructor
    · intro f hf
      exact runsFrom_nocover_c deck hmax hl hc _ 0 (by omega)
        (Or.inl hc.1) f hf
    · intro hl4
      exact runsFrom_count_c deck hmax hl4 hc _ 0 (by omega) (Or.inl hc.1)

/-- Witness for the amended C2 at a concrete input: the factory deck's spade
run `[0, 13)` is maximal, not consumed, and reported exactly once, extended
by the following Ace of Diamonds. -/
theorem rank_runs_maximality_witness :
    ValidDeck FACTORY_ORDER ∧
      maximalRun (FACTORY_ORDER.map parseCard) 0 13 ∧ 3 ≤ 13 ∧
      ((¬ consumedAce (FACTORY_ORDER.map parseCard) 0 →
        (detectRuns (FACTORY_ORDER.map parseCard)).countP
          (fun f => f.positions =
            List.range' 0 (13 + runExt (FACTORY_ORDER.map parseCard) 0 13)) = 1 ∧
        ∀ f ∈ detectRuns (FACTORY_ORDER.map parseCard),
          ¬ ((∀ p ∈ f.positions,
              p ∈ List.range' 0 (13 + runExt (FACTORY_ORDER.map parseCard) 0 13)) ∧
            f.positions.length < 13 + runExt (FACTORY_ORDER.map parseCard) 0 13)) ∧
      (consumedAce (FACTORY_ORDER.map parseCard) 0 →
        (∀ f ∈ detectRuns (FACTORY_ORDER.map parseCard),
          ¬ (0 ∈ f.positions ∧ 0 + 1 ∈ f.positions)) ∧
        (4 ≤ 13 →
          (detectRuns (FACTORY_ORDER.map parseCard)).countP
            (fun f => f.positions = List.range' (0 + 1)
              ((13 - 1) + runExt (FACTORY_ORDER.map parseCard) 0 13)) = 1))) :=
  ⟨by decide, by decide, by decide,
    rank_runs_maximality FACTORY_ORDER (by decide) 0 13 (by decide) (by decide)⟩
